import Mathlib

/-!
Verification of the go-csv CSV codec (JensRantil/go-csv).

The development is a shallow embedding of the current generation of the
library: `dialect.go` (the `Dialect` struct with `Comment` support and
`setDefaults`), `writer.go` (the `Writer` with the `QuoteNonNumericNonEmpty`
mode) and `reader.go` (the byte-oriented `Reader` with `skipComments`,
reproduced in the repository next to `dialect/flag.go`).

Go strings are byte sequences, and the reader/writer mix byte-level
operations (`Peek`, `Discard`, `bytes.Equal`, `bytes.Buffer.Truncate`) with
rune-level operations (`ReadRune`, `WriteRune`, `DecodeLastRuneInString`).
The embedding therefore models strings as lists of bytes (`List Nat`, each
entry < 256) and implements UTF-8 encoding and decoding with the exact
semantics of Go's `unicode/utf8` package, so that byte-level phenomena
(e.g. the escape-truncation behaviour of `readQuotedField`) are captured
faithfully.

An `io.Reader` is modelled as the list of bytes it will deliver plus the
terminal error (`io.EOF` or some other error) it reports once the bytes are
exhausted; this keeps `ReadAll`'s distinction between EOF and other errors
meaningful.  Loops are implemented with an explicit fuel argument whose
starting value (buffer length plus one) always dominates the number of
iterations, since every loop iteration of the Go code consumes input; the
fuel-exhausted branches are unreachable in every execution examined below
and return an error result.  `ReadRune` immediately followed by
`UnreadRune` (the only way the Go code uses `UnreadRune`) is modelled as a
peek that leaves the stream unchanged.  Branches where the Go code panics
are modelled as error results and are likewise unreachable in all verified
executions.
-/

namespace GoCsv

/-- Go strings and byte slices: lists of bytes. -/
abbrev Bytes := List Nat

/-- unicode.ReplacementChar / utf8.RuneError (U+FFFD). -/
def replacementChar : Char := ⟨0xFFFD, by decide⟩

/-- UTF-8 encoding of a rune (Go `utf8.EncodeRune` on a valid rune;
Lean's `Char` carries the validity invariant). -/
def utf8EncodeChar (c : Char) : Bytes :=
  let n := c.toNat
  if n < 0x80 then [n]
  else if n < 0x800 then [0xC0 + n / 64, 0x80 + n % 64]
  else if n < 0x10000 then [0xE0 + n / 4096, 0x80 + n / 64 % 64, 0x80 + n % 64]
  else [0xF0 + n / 262144, 0x80 + n / 4096 % 64, 0x80 + n / 64 % 64, 0x80 + n % 64]

/-- The bytes of the Go string holding the given runes. -/
def strBytes (cs : List Char) : Bytes := (cs.map utf8EncodeChar).flatten

/-- Bytes of a Lean string literal, for concrete test inputs. -/
def gostr (s : String) : Bytes := strBytes s.data

/-- Is `b` a UTF-8 continuation byte (Go: `!utf8.RuneStart(b)`). -/
def contByte (b : Nat) : Bool := 0x80 ≤ b ∧ b < 0xC0

/-- Go `utf8.DecodeRune` on the first bytes of the list: the decoded rune
and the number of bytes it occupies.  On a malformed, overlong, surrogate
or truncated encoding it returns `(RuneError, 1)`; on an empty input it
returns `(RuneError, 0)`. -/
def utf8DecodeFirst (bs : Bytes) : Char × Nat :=
  match bs with
  | [] => (replacementChar, 0)
  | b0 :: rest =>
    if b0 < 0x80 then (Char.ofNat b0, 1)
    else if b0 < 0xC2 then (replacementChar, 1)
    else if b0 < 0xE0 then
      match rest with
      | b1 :: _ =>
        if contByte b1 then (Char.ofNat ((b0 - 0xC0) * 64 + (b1 - 0x80)), 2)
        else (replacementChar, 1)
      | [] => (replacementChar, 1)
    else if b0 < 0xF0 then
      match rest with
      | b1 :: b2 :: _ =>
        if contByte b1 ∧ contByte b2 ∧ (b0 = 0xE0 → 0xA0 ≤ b1) ∧ (b0 = 0xED → b1 < 0xA0) then
          (Char.ofNat ((b0 - 0xE0) * 4096 + (b1 - 0x80) * 64 + (b2 - 0x80)), 3)
        else (replacementChar, 1)
      | _ => (replacementChar, 1)
    else if b0 < 0xF5 then
      match rest with
      | b1 :: b2 :: b3 :: _ =>
        if contByte b1 ∧ contByte b2 ∧ contByte b3 ∧
            (b0 = 0xF0 → 0x90 ≤ b1) ∧ (b0 = 0xF4 → b1 < 0x90) then
          (Char.ofNat ((b0 - 0xF0) * 262144 + (b1 - 0x80) * 4096 + (b2 - 0x80) * 64 + (b3 - 0x80)), 4)
        else (replacementChar, 1)
      | _ => (replacementChar, 1)
    else (replacementChar, 1)

/-- The runes of a Go string, fuelled (each decoded rune consumes at
least one byte, so fuel `bs.length` suffices). -/
def utf8CharsF : Nat → Bytes → List Char
  | 0, _ => []
  | _, [] => []
  | fuel + 1, b :: rest =>
    let d := utf8DecodeFirst (b :: rest)
    d.1 :: utf8CharsF fuel (rest.drop (d.2 - 1))

/-- The runes of a Go string (`for _, r := range s`): decode from the
front, advancing by one byte over a malformed encoding, as Go does. -/
def utf8Chars (bs : Bytes) : List Char := utf8CharsF bs.length bs

/-- Scan backwards (Go's loop in `DecodeLastRuneInString`) from index `i`
down to `lim` for a byte that starts a rune.  (At `i = 0` the `i ≤ lim`
test is necessarily true, so the `none` branch is taken when the byte is
a continuation byte.) -/
def scanBackStart (s : Bytes) : Nat → Nat → Option Nat
  | 0, _ => if ¬ contByte (s.getD 0 0) then some 0 else none
  | i + 1, lim =>
    if ¬ contByte (s.getD (i + 1) 0) then some (i + 1)
    else if i + 1 ≤ lim then none
    else scanBackStart s i lim

/-- Go `utf8.DecodeLastRuneInString`: the final rune of the byte string and
its size in bytes. -/
def decodeLastRune (s : Bytes) : Char × Nat :=
  let e := s.length
  if e = 0 then (replacementChar, 0)
  else
    let lastB := s.getD (e - 1) 0
    if lastB < 0x80 then (Char.ofNat lastB, 1)
    else
      let lim := e - 4
      let start :=
        if e - 2 < lim then lim - 1
        else match scanBackStart s (e - 2) lim with
          | some i => i
          | none => lim - 1
      let d := utf8DecodeFirst (s.drop start)
      if start + d.2 = e then d else (replacementChar, 1)

/-! ## Dialect (`dialect.go`) -/

/-- Values `Dialect.Quoting` can take (`QuoteMode`). -/
inductive QuoteMode
  | quoteDefault
  | quoteAll
  | quoteMinimal
  | quoteNonNumeric
  | quoteNonNumericNonEmpty
  | quoteNone
deriving DecidableEq, Repr

/-- Values `Dialect.DoubleQuote` can take (`DoubleQuoteMode`). -/
inductive DoubleQuoteMode
  | doubleQuoteDefault
  | doDoubleQuote
  | noDoubleQuote
deriving DecidableEq, Repr

/-- The `Dialect` struct. -/
structure Dialect where
  delimiter : Char
  quoting : QuoteMode
  doubleQuote : DoubleQuoteMode
  escapeChar : Char
  quoteChar : Char
  lineTerminator : Bytes
  comment : Char
deriving DecidableEq, Repr

/-- The zero value `Dialect{}` (all fields unset). -/
def zeroDialect : Dialect :=
  { delimiter := Char.ofNat 0
    quoting := .quoteDefault
    doubleQuote := .doubleQuoteDefault
    escapeChar := Char.ofNat 0
    quoteChar := Char.ofNat 0
    lineTerminator := []
    comment := Char.ofNat 0 }

/-- `Dialect.setDefaults`: substitute the `Default*` constants for unset
fields (DefaultDelimiter ',', DefaultQuoting QuoteMinimal,
DefaultLineTerminator "\n", DefaultDoubleQuote DoDoubleQuote,
DefaultQuoteChar '"', DefaultEscapeChar '\\', DefaultComment '#'). -/
def Dialect.setDefaults (d : Dialect) : Dialect :=
  { delimiter := if d.delimiter.toNat = 0 then ',' else d.delimiter
    quoting := if d.quoting = .quoteDefault then .quoteMinimal else d.quoting
    lineTerminator := if d.lineTerminator = [] then [10] else d.lineTerminator
    doubleQuote := if d.doubleQuote = .doubleQuoteDefault then .doDoubleQuote else d.doubleQuote
    quoteChar := if d.quoteChar.toNat = 0 then '"' else d.quoteChar
    escapeChar := if d.escapeChar.toNat = 0 then '\\' else d.escapeChar
    comment := if d.comment.toNat = 0 then '#' else d.comment }

/-- The ranges of the Unicode decimal-digit category Nd above Latin-1,
mirroring Go's `unicode.Digit` table.  (None of the verified claims is
sensitive to the exact extension of this table beyond Latin-1.) -/
def ndRanges : List (Nat × Nat) :=
  [(0x660, 0x669), (0x6F0, 0x6F9), (0x7C0, 0x7C9), (0x966, 0x96F),
   (0x9E6, 0x9EF), (0xA66, 0xA6F), (0xAE6, 0xAEF), (0xB66, 0xB6F),
   (0xBE6, 0xBEF), (0xC66, 0xC6F), (0xCE6, 0xCEF), (0xD66, 0xD6F),
   (0xDE6, 0xDEF), (0xE50, 0xE59), (0xED0, 0xED9), (0xF20, 0xF29),
   (0x1040, 0x1049), (0x1090, 0x1099), (0x17E0, 0x17E9), (0x1810, 0x1819),
   (0x1946, 0x194F), (0x19D0, 0x19D9), (0x1A80, 0x1A89), (0x1A90, 0x1A99),
   (0x1B50, 0x1B59), (0x1BB0, 0x1BB9), (0x1C40, 0x1C49), (0x1C50, 0x1C59),
   (0xA620, 0xA629), (0xA8D0, 0xA8D9), (0xA900, 0xA909), (0xA9D0, 0xA9D9),
   (0xA9F0, 0xA9F9), (0xAA50, 0xAA59), (0xABF0, 0xABF9), (0xFF10, 0xFF19),
   (0x104A0, 0x104A9), (0x10D30, 0x10D39), (0x11066, 0x1106F),
   (0x110F0, 0x110F9), (0x11136, 0x1113F), (0x111D0, 0x111D9),
   (0x112F0, 0x112F9), (0x11450, 0x11459), (0x114D0, 0x114D9),
   (0x11650, 0x11659), (0x116C0, 0x116C9), (0x11730, 0x11739),
   (0x118E0, 0x118E9), (0x11950, 0x11959), (0x11C50, 0x11C59),
   (0x11D50, 0x11D59), (0x11DA0, 0x11DA9), (0x16A60, 0x16A69),
   (0x16B50, 0x16B59), (0x1D7CE, 0x1D7FF), (0x1E140, 0x1E149),
   (0x1E2F0, 0x1E2F9), (0x1E950, 0x1E959), (0x1FBF0, 0x1FBF9)]

/-- Go `unicode.IsDigit`: the fast Latin-1 test, then the Nd table. -/
def unicodeIsDigit (c : Char) : Bool :=
  if c.toNat ≤ 0xFF then decide (0x30 ≤ c.toNat ∧ c.toNat ≤ 0x39)
  else ndRanges.any fun p => decide (p.1 ≤ c.toNat ∧ c.toNat ≤ p.2)

/-- `isNumeric` from the current `dialect.go`: non-empty, and every rune is
`'.'` or a decimal digit. -/
def isNumeric (s : Bytes) : Bool :=
  if s.length = 0 then false
  else (utf8Chars s).all fun r => r = '.' || unicodeIsDigit r

/-- `isEmpty` from `dialect.go`. -/
def isEmpty (s : Bytes) : Bool := s.length = 0

/-! ## String helpers (`strings` package, byte level) -/

/-- `strings.HasPrefix` on byte strings. -/
def startsWithB (s pre : Bytes) : Bool := decide (s.take pre.length = pre)

/-- `strings.Contains` on byte strings (substring search). -/
def containsStr (s sub : Bytes) : Bool :=
  match s with
  | [] => sub.isEmpty
  | _ :: t => startsWithB s sub || containsStr t sub

/-- `strings.ContainsRune` (via `strings.IndexRune`): an ASCII rune is a
byte search, `RuneError` matches any position that decodes to `RuneError`,
and other runes are a substring search for their UTF-8 encoding. -/
def containsRune (s : Bytes) (r : Char) : Bool :=
  if r.toNat < 0x80 then s.contains r.toNat
  else if r = replacementChar then (utf8Chars s).contains r
  else containsStr s (utf8EncodeChar r)

/-! ## Writer (`writer.go`)

The writer never fails in this model (its `bufio.Writer` wraps an
in-memory sink), so each operation is the list of bytes it emits. -/

/-- `Writer.writeEscapeChar`.  With an unset double-quote mode the Go code
panics; that branch is unreachable below (dialects are normalized). -/
def writeEscapeChar (d : Dialect) (c : Char) : Bytes :=
  match d.doubleQuote with
  | .doDoubleQuote => utf8EncodeChar c
  | .noDoubleQuote => utf8EncodeChar d.escapeChar
  | .doubleQuoteDefault => []

/-- `Writer.writeQuotedRune`: escape-prefix the escape character and the
quote character, then write the rune itself. -/
def writeQuotedRune (d : Dialect) (c : Char) : Bytes :=
  (if c = d.escapeChar then writeEscapeChar d c
   else if c = d.quoteChar then writeEscapeChar d c
   else []) ++ utf8EncodeChar c

/-- `Writer.writeQuoted`: opening quote, each rune of the field through
`writeQuotedRune`, closing quote. -/
def writeQuoted (d : Dialect) (f : Bytes) : Bytes :=
  utf8EncodeChar d.quoteChar ++ ((utf8Chars f).map (writeQuotedRune d)).flatten
    ++ utf8EncodeChar d.quoteChar

/-- `Writer.fieldNeedsQuote`.  With an unset quoting mode the Go code
panics; that branch is unreachable below (dialects are normalized). -/
def fieldNeedsQuote (d : Dialect) (f : Bytes) : Bool :=
  match d.quoting with
  | .quoteNone => false
  | .quoteAll => true
  | .quoteNonNumeric => ! isNumeric f
  | .quoteNonNumericNonEmpty => ! (isNumeric f || isEmpty f)
  | .quoteMinimal =>
      containsStr f d.lineTerminator || containsRune f d.delimiter
        || containsRune f d.quoteChar
  | .quoteDefault => false

/-- `Writer.writeField`. -/
def writeField (d : Dialect) (f : Bytes) : Bytes :=
  if fieldNeedsQuote d f then writeQuoted d f else f

/-- `Writer.Write`: fields separated by the delimiter, then the line
terminator. -/
def writeRecord (d : Dialect) (record : List Bytes) : Bytes :=
  (match record with
   | [] => []
   | f :: t =>
     writeField d f ++ (t.map fun g => utf8EncodeChar d.delimiter ++ writeField d g).flatten)
  ++ d.lineTerminator

/-- `Writer.WriteAll`: each record through `Write`. -/
def writeAll (d : Dialect) (records : List (List Bytes)) : Bytes :=
  (records.map (writeRecord d)).flatten

/-- `NewDialectWriter` + `WriteAll`: normalize the dialect, then write. -/
def dialectWriteAll (d : Dialect) (records : List (List Bytes)) : Bytes :=
  writeAll d.setDefaults records

/-! ## Reader (`reader.go`) -/

/-- The error an `io.Reader` reports once its bytes are exhausted:
`io.EOF`, or any other (non-EOF) I/O error. -/
inductive GoErr
  | eof
  | other
deriving DecidableEq, Repr

/-- The state of the reader's buffered source: the bytes still to be
delivered and the terminal error of the underlying `io.Reader`. -/
structure RState where
  buf : Bytes
  terr : GoErr
deriving DecidableEq, Repr

/-- `bufio.Reader.Peek n`: the next `n` bytes without consuming them; if
fewer remain, whatever is available together with the underlying error. -/
def RState.peek (st : RState) (n : Nat) : Bytes × Option GoErr :=
  if n ≤ st.buf.length then (st.buf.take n, none) else (st.buf, some st.terr)

/-- `bufio.Reader.Discard n`. -/
def RState.discard (st : RState) (n : Nat) : RState × Option GoErr :=
  if n ≤ st.buf.length then ({ st with buf := st.buf.drop n }, none)
  else ({ st with buf := [] }, some st.terr)

/-- `bufio.Reader.ReadRune`: decode one UTF-8 rune; a malformed encoding
yields `RuneError` and consumes one byte; an empty source yields the
underlying error (Go returns rune 0 then). -/
def RState.readRune (st : RState) : (Char × Option GoErr) × RState :=
  match st.buf with
  | [] => ((Char.ofNat 0, some st.terr), st)
  | b :: rest =>
    let d := utf8DecodeFirst (b :: rest)
    ((d.1, none), { st with buf := (b :: rest).drop d.2 })

/-- `ReadRune` immediately followed by `UnreadRune` (the only pattern in
which the reader uses `UnreadRune`): the stream is left unchanged. -/
def RState.peekRune (st : RState) : Char × Option GoErr :=
  st.readRune.1

/-- `Reader.nextIsBytes`: peek `bs.length` bytes and compare
(`bytes.Equal`); a short peek compares unequal, as in Go. -/
def nextIsBytes (st : RState) (bs : Bytes) : Bool × Option GoErr :=
  let p := st.peek bs.length
  (decide (p.1 = bs), p.2)

/-- `Reader.skipComments`, fuelled.  The loop peeks a growing prefix while
it sees spaces and tabs, discards through a comment character
(`rune(nextBytes[n-1])` is a single byte, compared with the comment rune),
and once in a comment discards bytes up to the line terminator; it stops,
consuming nothing more, at the first byte that is neither whitespace nor
the comment character when not inside a comment, and—as written in the
source—also stops early at a space or tab inside a comment.  Every
iteration either returns, grows `n` (bounded by the buffer), or consumes
input, so fuel `2 * buf.length + 2` always suffices when the line
terminator is non-empty; the fuel-exhausted branch is unreachable then. -/
def skipCommentsF (d : Dialect) : Nat → Nat → Bool → RState → Option GoErr × RState
  | 0, _, _, st => (some .other, st)
  | fuel + 1, n, isComment, st =>
    let p := st.peek n
    match p.2 with
    | some e => (some e, st)
    | none =>
      let b := p.1.getD (n - 1) 0
      if b = 32 ∨ b = 9 then
        if isComment then (none, st)
        else skipCommentsF d fuel (n + 1) isComment st
      else if b = d.comment.toNat then
        let dd := st.discard n
        match dd.2 with
        | some e => (some e, dd.1)
        | none => skipCommentsF d fuel 1 true dd.1
      else if ¬ isComment then (none, st)
      else
        let lt := nextIsBytes st d.lineTerminator
        if lt.1 then
          let sk := st.discard d.lineTerminator.length
          match sk.2 with
          | some e => (some e, sk.1)
          | none => skipCommentsF d fuel 1 false sk.1
        else
          let dd := st.discard n
          match dd.2 with
          | some e => (some e, dd.1)
          | none => skipCommentsF d fuel 1 isComment dd.1

/-- `Reader.skipComments` with its dominating fuel. -/
def skipComments (d : Dialect) (st : RState) : Option GoErr × RState :=
  skipCommentsF d (2 * st.buf.length + 2) 1 false st

/-- The loop of `Reader.readQuotedField`, fuelled; `s` is the accumulated
`bytes.Buffer`.  Non-quote runes are appended; at a quote rune the
behaviour depends on the double-quote mode.  The branches in which the Go
code panics (a malformed rune at the end of the buffer, an unrecognized
double-quote mode) are modelled as error results; every iteration consumes
input, so fuel `buf.length + 1` suffices and the fuel-exhausted branch is
unreachable. -/
def readQuotedLoopF (d : Dialect) : Nat → Bytes → RState → (Bytes × Option GoErr) × RState
  | 0, s, st => ((s, some .other), st)
  | fuel + 1, s, st =>
    let rr := st.readRune
    match rr.1.2 with
    | some e => ((s, some e), rr.2)
    | none =>
      let c := rr.1.1
      let st1 := rr.2
      if c ≠ d.quoteChar then readQuotedLoopF d fuel (s ++ utf8EncodeChar c) st1
      else
        match d.doubleQuote with
        | .doDoubleQuote =>
          let rr2 := st1.readRune
          match rr2.1.2 with
          | some e => ((s, some e), rr2.2)
          | none =>
            if rr2.1.1 = d.quoteChar then
              readQuotedLoopF d fuel (s ++ utf8EncodeChar rr2.1.1) rr2.2
            else ((s, none), st1)
        | .noDoubleQuote =>
          if s.length = 0 then ((s, none), st1)
          else
            let lr := decodeLastRune s
            if lr.1 = replacementChar ∧ lr.2 = 1 then ((s, some .other), st1)
            else if lr.1 = d.escapeChar then
              readQuotedLoopF d fuel
                (s.take (s.length - (utf8EncodeChar c).length) ++ utf8EncodeChar c) st1
            else ((s, none), st1)
        | .doubleQuoteDefault => ((s, some .other), st1)

/-- `Reader.readQuotedField`: consume the opening quote (the Go code
panics if it is not the quote character; modelled as an error,
unreachable from `readField`), then run the loop. -/
def readQuotedField (d : Dialect) (st : RState) : (Bytes × Option GoErr) × RState :=
  let rr := st.readRune
  match rr.1.2 with
  | some e => (([], some e), rr.2)
  | none =>
    if rr.1.1 ≠ d.quoteChar then (([], some .other), rr.2)
    else readQuotedLoopF d (rr.2.buf.length + 1) [] rr.2

/-- The loop of `Reader.readUnquotedField`, fuelled: read runes until an
error or the delimiter (which is unread and left for the caller), checking
after each appended rune whether the line terminator comes next. -/
def readUnquotedLoopF (d : Dialect) : Nat → Bytes → RState → (Bytes × Option GoErr) × RState
  | 0, s, st => ((s, some .other), st)
  | fuel + 1, s, st =>
    let rr := st.readRune
    match rr.1.2 with
    | some e => ((s, some e), st)
    | none =>
      if rr.1.1 = d.delimiter then ((s, none), st)
      else
        let s' := s ++ utf8EncodeChar rr.1.1
        let lt := nextIsBytes rr.2 d.lineTerminator
        if lt.1 then ((s', none), rr.2)
        else readUnquotedLoopF d fuel s' rr.2

/-- `Reader.readUnquotedField` with its dominating fuel. -/
def readUnquotedField (d : Dialect) (st : RState) : (Bytes × Option GoErr) × RState :=
  readUnquotedLoopF d (st.buf.length + 1) [] st

/-- `Reader.readField`: an empty field if the line terminator (or an
error) comes first; otherwise dispatch on whether the next rune is the
quote character. -/
def readField (d : Dialect) (st : RState) : (Bytes × Option GoErr) × RState :=
  let lt := nextIsBytes st d.lineTerminator
  if lt.1 ∨ lt.2.isSome then (([], lt.2), st)
  else
    let pr := st.peekRune
    match pr.2 with
    | some e => (([], some e), st)
    | none =>
      if pr.1 = d.quoteChar then readQuotedField d st
      else readUnquotedField d st

/-- The field loop of `Reader.Read`, fuelled: append each field; stop with
the field's error, after consuming a line terminator, or at anything that
is not a delimiter; otherwise consume the delimiter (its `Discard` error
is dropped, as in the source) and continue. -/
def readLoopF (d : Dialect) : Nat → List Bytes → RState → (List Bytes × Option GoErr) × RState
  | 0, record, st => ((record, some .other), st)
  | fuel + 1, record, st =>
    let rf := readField d st
    let record' := record ++ [rf.1.1]
    match rf.1.2 with
    | some e => ((record', some e), rf.2)
    | none =>
      let st1 := rf.2
      let lt := nextIsBytes st1 d.lineTerminator
      if lt.1 then
        let sk := st1.discard d.lineTerminator.length
        ((record', sk.2), sk.1)
      else
        let del := nextIsBytes st1 (utf8EncodeChar d.delimiter)
        if del.1 then readLoopF d fuel record' (st1.discard (utf8EncodeChar d.delimiter).length).1
        else ((record', del.2), st1)

/-- `Reader.Read` on a normalized dialect: skip comments (returning the
empty record on error there), then run the field loop. -/
def readRecord (d : Dialect) (st : RState) : (List Bytes × Option GoErr) × RState :=
  let sc := skipComments d st
  match sc.1 with
  | some e => (([], some e), sc.2)
  | none => readLoopF d (sc.2.buf.length + 1) [] sc.2

/-- The loop of `Reader.ReadAll`, fuelled: `io.EOF` ends the loop cleanly
with the accumulated rows; any other error discards them (`return nil,
err`); each successful `Read` consumes input, so fuel `buf.length + 1`
suffices. -/
def readAllF (d : Dialect) : Nat → List (List Bytes) → RState →
    (List (List Bytes) × Option GoErr) × RState
  | 0, _, st => (([], some .other), st)
  | fuel + 1, rows, st =>
    let r := readRecord d st
    match r.1.2 with
    | some .eof => ((rows, none), r.2)
    | some .other => (([], some .other), r.2)
    | none => readAllF d fuel (rows ++ [r.1.1]) r.2

/-- `Reader.ReadAll` on a normalized dialect. -/
def readAllRecords (d : Dialect) (st : RState) : (List (List Bytes) × Option GoErr) × RState :=
  readAllF d (st.buf.length + 1) [] st

/-- `NewDialectReader` + `Read`: normalize the dialect, then read one
record. -/
def dialectRead (d : Dialect) (st : RState) : (List Bytes × Option GoErr) × RState :=
  readRecord d.setDefaults st

/-- `NewDialectReader` + `ReadAll`. -/
def dialectReadAll (d : Dialect) (st : RState) : (List (List Bytes) × Option GoErr) × RState :=
  readAllRecords d.setDefaults st

/-! ## Claim-specific definitions -/

/-- The dialect resolved from the zero value: the common CSV convention,
except that the comment marker is also defaulted (to `'#'`). -/
def resolvedDefaultDialect : Dialect :=
  { delimiter := ','
    quoting := .quoteMinimal
    doubleQuote := .doDoubleQuote
    escapeChar := '\\'
    quoteChar := '"'
    lineTerminator := [10]
    comment := '#' }

/-- The dialect of claim C3's failing input: EscapeChar (NoDoubleQuote)
mode with the two-byte escape character `'é'` and the one-byte quote
character `'"'`. -/
def multibyteEscDialect : Dialect :=
  Dialect.setDefaults { zeroDialect with doubleQuote := .noDoubleQuote, escapeChar := 'é' }

/-- Claim C4's wording of the Minimal-quoting condition, on the runes of
the field: the field contains the line-terminator string, the delimiter
character, or the quote character. -/
def specMinimalCond (d : Dialect) (cs : List Char) : Bool :=
  containsStr (strBytes cs) d.lineTerminator || cs.contains d.delimiter
    || cs.contains d.quoteChar

/-- Claim C5's wording of the numeric test: non-empty, composed
exclusively of decimal digits, except that a single `'.'` is also
permitted. -/
def specNumericSingleDot (cs : List Char) : Bool :=
  !cs.isEmpty && cs.all (fun c => unicodeIsDigit c || c = '.') && cs.count '.' ≤ 1

/-- Claim C5's amended wording of the numeric test: non-empty and every
rune a decimal digit or `'.'` (any number of dots). -/
def specNumericAnyDots (cs : List Char) : Bool :=
  !cs.isEmpty && cs.all (fun c => unicodeIsDigit c || c = '.')

/-- The whitespace characters recognized by `skipComments`. -/
def wsB (c : Char) : Bool := c = ' ' || c = '\t'

/-- The byte stream `bs` does not begin as a comment: it has a first
non-space, non-tab byte, and that byte is not the comment character.
(`skipComments` then returns without consuming anything.) -/
def NonCommentStart (d : Dialect) (bs : Bytes) : Prop :=
  ∃ i, i < bs.length ∧ (∀ j, j < i → bs.getD j 0 = 32 ∨ bs.getD j 0 = 9) ∧
    ¬(bs.getD i 0 = 32 ∨ bs.getD i 0 = 9) ∧ bs.getD i 0 ≠ d.comment.toNat

/-- Hypotheses on a (normalized) dialect under which the reader inverts
the writer: the special characters are ASCII, pairwise distinct and not
whitespace; the line terminator is non-empty, made of ASCII bytes
distinct from the other special characters and from whitespace, and has
no period shorter than itself; and the quoting and double-quote modes
are among the recognized (non-default) ones, quoting not being None. -/
structure GoodDialect (d : Dialect) : Prop where
  delim_ascii : d.delimiter.toNat < 0x80
  quote_ascii : d.quoteChar.toNat < 0x80
  esc_ascii : d.escapeChar.toNat < 0x80
  comment_ascii : d.comment.toNat < 0x80
  delim_ne_quote : d.delimiter ≠ d.quoteChar
  delim_ne_esc : d.delimiter ≠ d.escapeChar
  quote_ne_esc : d.quoteChar ≠ d.escapeChar
  comment_ne_delim : d.comment ≠ d.delimiter
  comment_ne_quote : d.comment ≠ d.quoteChar
  delim_not_ws : d.delimiter ≠ ' ' ∧ d.delimiter ≠ '\t'
  quote_not_ws : d.quoteChar ≠ ' ' ∧ d.quoteChar ≠ '\t'
  lt_ne_nil : d.lineTerminator ≠ []
  lt_byte_good : ∀ b ∈ d.lineTerminator,
    b < 0x80 ∧ b ≠ d.delimiter.toNat ∧ b ≠ d.quoteChar.toNat ∧ b ≠ d.comment.toNat ∧
      b ≠ 32 ∧ b ≠ 9
  lt_aperiodic : ∀ k, 0 < k → k < d.lineTerminator.length →
    d.lineTerminator.drop k ≠ d.lineTerminator.take (d.lineTerminator.length - k)
  quoting_good : d.quoting = .quoteAll ∨ d.quoting = .quoteMinimal ∨
    d.quoting = .quoteNonNumeric ∨ d.quoting = .quoteNonNumericNonEmpty
  dq_good : d.doubleQuote = .doDoubleQuote ∨ d.doubleQuote = .noDoubleQuote

/-- A field the writer-then-reader round trip preserves: it does not
contain the escape character, and, when the writer leaves it unquoted, it
contains neither the line-terminator byte string nor the delimiter and
does not begin with the quote character. -/
def SafeField (d : Dialect) (f : List Char) : Prop :=
  d.escapeChar ∉ f ∧
    (fieldNeedsQuote d (strBytes f) = false →
      containsStr (strBytes f) d.lineTerminator = false ∧ d.delimiter ∉ f ∧
        f.head? ≠ some d.quoteChar)

/-- The bytes `Writer.Write` produces for the fields of a record before
the line terminator: the fields, each through `writeField`, joined by the
delimiter. -/
def joinFields (d : Dialect) : List (List Char) → Bytes
  | [] => []
  | f :: t =>
    writeField d (strBytes f)
      ++ (t.map fun g => utf8EncodeChar d.delimiter ++ writeField d (strBytes g)).flatten

/-- A record the round trip preserves: non-empty, made of safe fields,
and, when its first field is written unquoted, that field does not
consist of whitespace followed by the comment character. -/
def SafeRecord (d : Dialect) (r : List (List Char)) : Prop :=
  r ≠ [] ∧ (∀ f ∈ r, SafeField d f) ∧
    ∀ f0 ∈ r.head?, fieldNeedsQuote d (strBytes f0) = false →
      (f0.dropWhile wsB).head? ≠ some d.comment

/-- The byte stream of a record that the source ends in the middle of:
raw (unquoted) fields joined by the delimiter, with no trailing line
terminator. -/
def unquotedJoin (d : Dialect) : List (List Char) → Bytes
  | [] => []
  | [f] => strBytes f
  | f :: g :: t => strBytes f ++ (utf8EncodeChar d.delimiter ++ unquotedJoin d (g :: t))

/-! ## Foundational lemmas: UTF-8 encoding and decoding -/

theorem char_valid_nat (c : Char) : c.toNat < 0xD800 ∨ (0xDFFF < c.toNat ∧ c.toNat < 0x110000) :=
  c.valid

theorem charOfNat_toNat (c : Char) : Char.ofNat c.toNat = c := by
  rcases c with ⟨⟨⟨n, hlt⟩⟩, hv⟩
  simp [Char.ofNat, Char.toNat, hv]
  rfl

theorem charToNat_inj {c c' : Char} (h : c.toNat = c'.toNat) : c = c' := by
  rw [← charOfNat_toNat c, h, charOfNat_toNat]

theorem charToNat_inj2 (c c' : Char) (h : c.toNat = c'.toNat) : c = c' :=
  charToNat_inj h

theorem utf8EncodeChar_length_pos (c : Char) : 0 < (utf8EncodeChar c).length := by
  simp only [utf8EncodeChar]
  split_ifs <;> simp

theorem utf8EncodeChar_ne_nil (c : Char) : utf8EncodeChar c ≠ [] := by
  have h := utf8EncodeChar_length_pos c
  intro hn
  rw [hn] at h
  simp at h

theorem utf8DecodeFirst_encode (c : Char) (t : Bytes) :
    utf8DecodeFirst (utf8EncodeChar c ++ t) = (c, (utf8EncodeChar c).length) := by
  have hv := char_valid_nat c
  have hr := charOfNat_toNat c
  by_cases h1 : c.toNat < 0x80
  · simp only [utf8EncodeChar, if_pos h1, List.cons_append, List.nil_append,
      utf8DecodeFirst, List.length_singleton]
    rw [hr]
  · by_cases h2 : c.toNat < 0x800
    · simp only [utf8EncodeChar, if_neg h1, if_pos h2, List.cons_append, List.nil_append,
        utf8DecodeFirst, List.length_cons, List.length_nil]
      have hb0 : ¬ (0xC0 + c.toNat / 64 < 0x80) := by omega
      have hb0' : ¬ (0xC0 + c.toNat / 64 < 0xC2) := by omega
      have hb0'' : 0xC0 + c.toNat / 64 < 0xE0 := by omega
      have hcont : contByte (0x80 + c.toNat % 64) = true := by
        simp only [contByte, decide_eq_true_eq]
        omega
      rw [if_neg hb0, if_neg hb0', if_pos hb0'', if_pos hcont]
      have harith : (0xC0 + c.toNat / 64 - 0xC0) * 64 + (0x80 + c.toNat % 64 - 0x80) = c.toNat := by
        omega
      rw [harith, hr]
    · by_cases h3 : c.toNat < 0x10000
      · simp only [utf8EncodeChar, if_neg h1, if_neg h2, if_pos h3, List.cons_append,
          List.nil_append, utf8DecodeFirst, List.length_cons, List.length_nil]
        have hb0 : ¬ (0xE0 + c.toNat / 4096 < 0x80) := by omega
        have hb0' : ¬ (0xE0 + c.toNat / 4096 < 0xC2) := by omega
        have hb0'' : ¬ (0xE0 + c.toNat / 4096 < 0xE0) := by omega
        have hb0''' : 0xE0 + c.toNat / 4096 < 0xF0 := by omega
        rw [if_neg hb0, if_neg hb0', if_neg hb0'', if_pos hb0''']
        have hcond : contByte (0x80 + c.toNat / 64 % 64) = true ∧
            contByte (0x80 + c.toNat % 64) = true ∧
            (0xE0 + c.toNat / 4096 = 0xE0 → 0xA0 ≤ 0x80 + c.toNat / 64 % 64) ∧
            (0xE0 + c.toNat / 4096 = 0xED → 0x80 + c.toNat / 64 % 64 < 0xA0) := by
          refine ⟨by simp only [contByte, decide_eq_true_eq]; omega,
            by simp only [contByte, decide_eq_true_eq]; omega, ?_, ?_⟩ <;> omega
        rw [if_pos hcond]
        have harith : (0xE0 + c.toNat / 4096 - 0xE0) * 4096 + (0x80 + c.toNat / 64 % 64 - 0x80) * 64
            + (0x80 + c.toNat % 64 - 0x80) = c.toNat := by omega
        rw [harith, hr]
      · simp only [utf8EncodeChar, if_neg h1, if_neg h2, if_neg h3, List.cons_append,
          List.nil_append, utf8DecodeFirst, List.length_cons, List.length_nil]
        have hb0 : ¬ (0xF0 + c.toNat / 262144 < 0x80) := by omega
        have hb0' : ¬ (0xF0 + c.toNat / 262144 < 0xC2) := by omega
        have hb0'' : ¬ (0xF0 + c.toNat / 262144 < 0xE0) := by omega
        have hb0''' : ¬ (0xF0 + c.toNat / 262144 < 0xF0) := by omega
        have hb4 : 0xF0 + c.toNat / 262144 < 0xF5 := by omega
        rw [if_neg hb0, if_neg hb0', if_neg hb0'', if_neg hb0''', if_pos hb4]
        have hcond : contByte (0x80 + c.toNat / 4096 % 64) = true ∧
            contByte (0x80 + c.toNat / 64 % 64) = true ∧
            contByte (0x80 + c.toNat % 64) = true ∧
            (0xF0 + c.toNat / 262144 = 0xF0 → 0x90 ≤ 0x80 + c.toNat / 4096 % 64) ∧
            (0xF0 + c.toNat / 262144 = 0xF4 → 0x80 + c.toNat / 4096 % 64 < 0x90) := by
          refine ⟨by simp only [contByte, decide_eq_true_eq]; omega,
            by simp only [contByte, decide_eq_true_eq]; omega,
            by simp only [contByte, decide_eq_true_eq]; omega, ?_, ?_⟩ <;> omega
        rw [if_pos hcond]
        have harith : (0xF0 + c.toNat / 262144 - 0xF0) * 262144
            + (0x80 + c.toNat / 4096 % 64 - 0x80) * 4096
            + (0x80 + c.toNat / 64 % 64 - 0x80) * 64 + (0x80 + c.toNat % 64 - 0x80) = c.toNat := by
          omega
        rw [harith, hr]

theorem utf8EncodeChar_inj {c c' : Char} (h : utf8EncodeChar c = utf8EncodeChar c') : c = c' := by
  have h1 := utf8DecodeFirst_encode c []
  have h2 := utf8DecodeFirst_encode c' []
  rw [h] at h1
  rw [h1] at h2
  exact (Prod.mk.injEq _ _ _ _ ▸ h2).1

theorem utf8CharsF_cons (fuel : Nat) (c : Char) (rest : Bytes) :
    utf8CharsF (fuel + 1) (utf8EncodeChar c ++ rest) = c :: utf8CharsF fuel rest := by
  obtain ⟨b, l, hb⟩ : ∃ b l, utf8EncodeChar c = b :: l := by
    cases h : utf8EncodeChar c with
    | nil => exact absurd h (utf8EncodeChar_ne_nil c)
    | cons b l => exact ⟨b, l, rfl⟩
  have hd : utf8DecodeFirst (b :: (l ++ rest)) = (c, (utf8EncodeChar c).length) := by
    rw [← List.cons_append, ← hb]
    exact utf8DecodeFirst_encode c rest
  rw [hb, List.cons_append]
  simp only [utf8CharsF, hd]
  rw [hb]
  simp [List.drop_left]

theorem utf8CharsF_strBytes : ∀ (fuel : Nat) (cs : List Char),
    (strBytes cs).length ≤ fuel → utf8CharsF fuel (strBytes cs) = cs := by
  intro fuel cs
  induction cs generalizing fuel with
  | nil =>
    intro _
    cases fuel <;> simp [utf8CharsF, strBytes]
  | cons c cs ih =>
    intro hle
    have hsb : strBytes (c :: cs) = utf8EncodeChar c ++ strBytes cs := by
      simp [strBytes]
    have hpos := utf8EncodeChar_length_pos c
    rw [hsb] at hle ⊢
    rw [List.length_append] at hle
    cases fuel with
    | zero => omega
    | succ fuel =>
      rw [utf8CharsF_cons]
      rw [ih fuel (by omega)]

theorem utf8Chars_strBytes (cs : List Char) : utf8Chars (strBytes cs) = cs :=
  utf8CharsF_strBytes _ cs le_rfl

/-! ## Foundational lemmas: containment and substring search -/

theorem startsWithB_iff (s pre : Bytes) : startsWithB s pre = true ↔ pre <+: s := by
  simp only [startsWithB, decide_eq_true_eq]
  exact ⟨fun h => List.prefix_iff_eq_take.2 h.symm, fun h => (List.prefix_iff_eq_take.1 h).symm⟩

theorem containsStr_iff (s sub : Bytes) : containsStr s sub = true ↔ sub <:+: s := by
  induction s with
  | nil => simp [containsStr, List.isEmpty_iff]
  | cons a t ih =>
    simp only [containsStr, Bool.or_eq_true, startsWithB_iff, ih, List.infix_cons_iff]

theorem enc_tail_cont (c : Char) : ∀ x ∈ (utf8EncodeChar c).tail, 0x80 ≤ x ∧ x < 0xC0 := by
  have hv := char_valid_nat c
  simp only [utf8EncodeChar]
  split_ifs with h1 h2 h3 <;> simp <;> omega

theorem enc_head_shape (c : Char) :
    ∃ b l, utf8EncodeChar c = b :: l ∧ (b < 0x80 ∨ 0xC2 ≤ b ∧ b ≤ 0xF4) := by
  have hv := char_valid_nat c
  simp only [utf8EncodeChar]
  split_ifs with h1 h2 h3
  · exact ⟨_, _, rfl, Or.inl h1⟩
  · exact ⟨_, _, rfl, Or.inr (by omega)⟩
  · exact ⟨_, _, rfl, Or.inr (by omega)⟩
  · exact ⟨_, _, rfl, Or.inr (by omega)⟩

theorem enc_infix_strBytes (r : Char) (cs : List Char) :
    utf8EncodeChar r <:+: strBytes cs ↔ r ∈ cs := by
  induction cs with
  | nil =>
    simp only [strBytes, List.map_nil, List.flatten_nil, List.infix_nil,
      List.not_mem_nil, iff_false]
    exact utf8EncodeChar_ne_nil r
  | cons c cs ih =>
    have hsb : strBytes (c :: cs) = utf8EncodeChar c ++ strBytes cs := by
      simp [strBytes]
    constructor
    · rintro ⟨p, q, hpq⟩
      rw [hsb] at hpq
      rcases Nat.lt_or_ge p.length (utf8EncodeChar c).length with hlt | hge
      · rcases Nat.eq_zero_or_pos p.length with h0 | hpos
        · have hp : p = [] := List.length_eq_zero.1 h0
          subst hp
          simp only [List.nil_append] at hpq
          have h1 := utf8DecodeFirst_encode r q
          have h2 := utf8DecodeFirst_encode c (strBytes cs)
          rw [hpq] at h1
          rw [h1] at h2
          have hrc : r = c := (Prod.mk.injEq _ _ _ _ ▸ h2).1
          exact List.mem_cons.2 (Or.inl hrc)
        · exfalso
          obtain ⟨b, l, hbl, hb⟩ := enc_head_shape r
          have hL : ((p ++ utf8EncodeChar r) ++ q)[p.length]? = some b := by
            rw [List.getElem?_append_left
                (by simp only [List.length_append, hbl, List.length_cons]; omega),
              List.getElem?_append_right (le_refl _)]
            simp [hbl]
          have hR : (utf8EncodeChar c ++ strBytes cs)[p.length]? = (utf8EncodeChar c)[p.length]? :=
            List.getElem?_append_left hlt
          rw [hpq] at hL
          rw [hR] at hL
          obtain ⟨bc, lc, hbc, _⟩ := enc_head_shape c
          rw [hbc] at hL
          have hget : lc[p.length - 1]? = some b := by
            rw [List.getElem?_cons] at hL
            simp only [if_neg (by omega : ¬ p.length = 0)] at hL
            exact hL
          obtain ⟨hlen, hval⟩ := List.getElem?_eq_some.1 hget
          have hmem : b ∈ lc := hval ▸ List.getElem_mem hlen
          have hcont := enc_tail_cont c b (by rw [hbc]; exact hmem)
          omega
      · rw [List.append_assoc] at hpq
        have htake : utf8EncodeChar c = p.take (utf8EncodeChar c).length := by
          have hT := congrArg (List.take (utf8EncodeChar c).length) hpq
          rw [List.take_append_of_le_length hge, List.take_left] at hT
          exact hT.symm
        have hpre : utf8EncodeChar c <+: p := List.prefix_iff_eq_take.2 htake
        obtain ⟨p', hp'⟩ := hpre
        rw [← hp'] at hpq
        have hcancel : (p' ++ utf8EncodeChar r) ++ q = strBytes cs := by
          have h2 : utf8EncodeChar c ++ ((p' ++ utf8EncodeChar r) ++ q)
              = utf8EncodeChar c ++ strBytes cs := by
            rw [← hpq]
            simp [List.append_assoc]
          exact List.append_cancel_left h2
        exact List.mem_cons.2 (Or.inr (ih.1 ⟨p', q, hcancel⟩))
    · intro hmem
      rcases List.mem_cons.1 hmem with rfl | hmem'
      · exact ⟨[], strBytes cs, by rw [hsb]; simp⟩
      · obtain ⟨p, q, hpq⟩ := ih.2 hmem'
        exact ⟨utf8EncodeChar c ++ p, q, by rw [hsb, ← hpq]; simp [List.append_assoc]⟩

theorem singleton_infix_iff (b : Nat) (l : Bytes) : [b] <:+: l ↔ b ∈ l := by
  constructor
  · rintro ⟨p, q, h⟩
    rw [← h]
    simp
  · intro h
    obtain ⟨s, t, h⟩ := List.append_of_mem h
    exact ⟨s, t, by rw [h]; simp⟩

theorem strBytes_eq_nil_iff (cs : List Char) : strBytes cs = [] ↔ cs = [] := by
  cases cs with
  | nil => simp [strBytes]
  | cons c cs =>
    simp only [strBytes, List.map_cons, List.flatten_cons]
    constructor
    · intro h
      exact absurd (List.append_eq_nil.1 h).1 (utf8EncodeChar_ne_nil c)
    · intro h
      exact absurd h (List.cons_ne_nil c cs)

theorem containsRune_strBytes (cs : List Char) (r : Char) :
    containsRune (strBytes cs) r = cs.contains r := by
  rw [Bool.eq_iff_iff, List.contains_iff_exists_mem_beq]
  have hmem : (∃ x, x ∈ cs ∧ (r == x) = true) ↔ r ∈ cs := by
    constructor
    · rintro ⟨x, hx, hbeq⟩
      rwa [show r = x from by simpa using hbeq]
    · intro h
      exact ⟨r, h, by simp⟩
  rw [hmem]
  unfold containsRune
  by_cases h1 : r.toNat < 0x80
  · rw [if_pos h1, List.contains_iff_exists_mem_beq]
    have henc : utf8EncodeChar r = [r.toNat] := by
      simp [utf8EncodeChar, h1]
    constructor
    · rintro ⟨x, hx, hbeq⟩
      have hxr : r.toNat = x := by simpa using hbeq
      rw [← hxr] at hx
      have : [r.toNat] <:+: strBytes cs := (singleton_infix_iff _ _).2 hx
      rw [← henc] at this
      exact (enc_infix_strBytes r cs).1 this
    · intro h
      have : utf8EncodeChar r <:+: strBytes cs := (enc_infix_strBytes r cs).2 h
      rw [henc] at this
      exact ⟨r.toNat, (singleton_infix_iff _ _).1 this, by simp⟩
  · rw [if_neg h1]
    by_cases h2 : r = replacementChar
    · rw [if_pos h2, utf8Chars_strBytes, List.contains_iff_exists_mem_beq]
      constructor
      · rintro ⟨x, hx, hbeq⟩
        rwa [show r = x from by simpa using hbeq]
      · intro h
        exact ⟨r, h, by simp⟩
    · rw [if_neg h2, containsStr_iff]
      exact enc_infix_strBytes r cs

/-! ## Foundational lemmas: stream primitives and the last rune -/

theorem encodeChar_cons (c : Char) : ∃ b l, utf8EncodeChar c = b :: l := by
  cases h : utf8EncodeChar c with
  | nil => exact absurd h (utf8EncodeChar_ne_nil c)
  | cons b l => exact ⟨b, l, rfl⟩

theorem readRune_encode (c : Char) (t : Bytes) (e : GoErr) :
    RState.readRune ⟨utf8EncodeChar c ++ t, e⟩ = ((c, none), ⟨t, e⟩) := by
  obtain ⟨b, l, hb⟩ := encodeChar_cons c
  have hd : utf8DecodeFirst (b :: (l ++ t)) = (c, (utf8EncodeChar c).length) := by
    rw [← List.cons_append, ← hb]
    exact utf8DecodeFirst_encode c t
  rw [hb, List.cons_append]
  simp only [RState.readRune, hd]
  rw [show (b :: (l ++ t)) = (b :: l) ++ t by simp, ← hb, List.drop_left]

theorem readRune_empty (e : GoErr) :
    RState.readRune ⟨[], e⟩ = ((Char.ofNat 0, some e), ⟨[], e⟩) := rfl

theorem nextIsBytes_found (bs t : Bytes) (e : GoErr) :
    nextIsBytes ⟨bs ++ t, e⟩ bs = (true, none) := by
  simp [nextIsBytes, RState.peek, List.take_left, List.length_append]

theorem nextIsBytes_miss {buf : Bytes} {e : GoErr} {bs : Bytes}
    (hlen : bs.length ≤ buf.length) (h : buf.take bs.length ≠ bs) :
    nextIsBytes ⟨buf, e⟩ bs = (false, none) := by
  simp [nextIsBytes, RState.peek, hlen, h]

theorem nextIsBytes_short {buf : Bytes} {e : GoErr} {bs : Bytes}
    (h : buf.length < bs.length) :
    nextIsBytes ⟨buf, e⟩ bs = (false, some e) := by
  have hne : buf ≠ bs := fun hc => by rw [hc] at h; omega
  simp [nextIsBytes, RState.peek, Nat.not_le.2 h, hne]

theorem discard_exact (bs t : Bytes) (e : GoErr) :
    RState.discard ⟨bs ++ t, e⟩ bs.length = (⟨t, e⟩, none) := by
  simp [RState.discard, List.length_append, List.drop_left]

theorem scanBackStart_hit (s : Bytes) (i lim : Nat) (h : contByte (s.getD i 0) = false) :
    scanBackStart s i lim = some i := by
  simp only [List.getD_eq_getElem?_getD] at h
  cases i <;> simp [scanBackStart, List.getD_eq_getElem?_getD, h]

theorem scanBackStart_step (s : Bytes) (i lim : Nat) (h : contByte (s.getD (i + 1) 0) = true)
    (hlim : ¬ i + 1 ≤ lim) : scanBackStart s (i + 1) lim = scanBackStart s i lim := by
  simp only [List.getD_eq_getElem?_getD] at h
  simp [scanBackStart, List.getD_eq_getElem?_getD, h, hlim]

theorem getD_append_right' (l₁ l₂ : Bytes) (k : Nat) :
    (l₁ ++ l₂).getD (l₁.length + k) 0 = l₂.getD k 0 := by
  rw [List.getD_append_right l₁ l₂ 0 (l₁.length + k) (by omega), Nat.add_sub_cancel_left]

theorem scanBackStart_through (s : Bytes) (base lim : Nat) :
    ∀ k, (∀ j, 1 ≤ j → j ≤ k → contByte (s.getD (base + j) 0) = true) →
      contByte (s.getD base 0) = false → lim ≤ base →
      scanBackStart s (base + k) lim = some base := by
  intro k
  induction k with
  | zero =>
    intro _ hhit _
    exact scanBackStart_hit s base lim hhit
  | succ k ih =>
    intro hcont hhit hlim
    have hstep : scanBackStart s (base + k + 1) lim = scanBackStart s (base + k) lim :=
      scanBackStart_step s (base + k) lim (hcont (k + 1) (by omega) (by omega)) (by omega)
    rw [show base + (k + 1) = base + k + 1 by omega, hstep]
    exact ih (fun j hj1 hj2 => hcont j hj1 (by omega)) hhit hlim

theorem decodeLastRune_append (bs : Bytes) (c : Char) :
    decodeLastRune (bs ++ utf8EncodeChar c) = (c, (utf8EncodeChar c).length) := by
  have hv := char_valid_nat c
  have hr := charOfNat_toNat c
  have hdec : utf8DecodeFirst (utf8EncodeChar c) = (c, (utf8EncodeChar c).length) := by
    have h := utf8DecodeFirst_encode c []
    rwa [List.append_nil] at h
  have hdrop : (bs ++ utf8EncodeChar c).drop bs.length = utf8EncodeChar c := List.drop_left _ _
  by_cases h1 : c.toNat < 0x80
  · have henc : utf8EncodeChar c = [c.toNat] := by
      simp [utf8EncodeChar, h1]
    simp only [decodeLastRune, henc, List.length_append, List.length_singleton]
    rw [if_neg (by omega)]
    have hgd : (bs ++ [c.toNat]).getD (bs.length + 1 - 1) 0 = c.toNat := by
      rw [show bs.length + 1 - 1 = bs.length + 0 by omega, getD_append_right' bs [c.toNat] 0]
      rfl
    rw [hgd, if_pos h1, hr]
  · obtain ⟨b0, cont, hbc⟩ := encodeChar_cons c
    have hb0 : contByte ((bs ++ utf8EncodeChar c).getD bs.length 0) = false := by
      rw [show bs.length = bs.length + 0 by omega, getD_append_right' bs _ 0, hbc]
      have : ¬ (0x80 ≤ b0 ∧ b0 < 0xC0) := by
        have hvv := hv
        by_cases h2 : c.toNat < 0x800
        · have : utf8EncodeChar c = [0xC0 + c.toNat / 64, 0x80 + c.toNat % 64] := by
            simp [utf8EncodeChar, h1, h2]
          rw [this] at hbc
          cases hbc
          omega
        · by_cases h3 : c.toNat < 0x10000
          · have : utf8EncodeChar c =
                [0xE0 + c.toNat / 4096, 0x80 + c.toNat / 64 % 64, 0x80 + c.toNat % 64] := by
              simp [utf8EncodeChar, h1, h2, h3]
            rw [this] at hbc
            cases hbc
            omega
          · have : utf8EncodeChar c = [0xF0 + c.toNat / 262144, 0x80 + c.toNat / 4096 % 64,
                0x80 + c.toNat / 64 % 64, 0x80 + c.toNat % 64] := by
              simp [utf8EncodeChar, h1, h2, h3]
            rw [this] at hbc
            cases hbc
            omega
      simp [contByte, List.getD, this]
    have hlen4 : (utf8EncodeChar c).length ≤ 4 := by
      simp only [utf8EncodeChar]
      split_ifs <;> simp
    have hlen2 : 2 ≤ (utf8EncodeChar c).length := by
      rcases hv with hv | hv
      · simp only [utf8EncodeChar, if_neg h1]
        split_ifs <;> simp
      · simp only [utf8EncodeChar, if_neg h1]
        split_ifs <;> simp
    have hcont : ∀ j, 1 ≤ j → j < (utf8EncodeChar c).length →
        contByte ((utf8EncodeChar c).getD j 0) = true := by
      intro j hj1 hj2
      by_cases h2 : c.toNat < 0x800
      · have henc : utf8EncodeChar c = [0xC0 + c.toNat / 64, 0x80 + c.toNat % 64] := by
          simp [utf8EncodeChar, h1, h2]
        rw [henc] at hj2 ⊢
        simp only [List.length_cons, List.length_nil] at hj2
        interval_cases j
        · simp [List.getD, contByte]
          omega
      · by_cases h3 : c.toNat < 0x10000
        · have henc : utf8EncodeChar c =
              [0xE0 + c.toNat / 4096, 0x80 + c.toNat / 64 % 64, 0x80 + c.toNat % 64] := by
            simp [utf8EncodeChar, h1, h2, h3]
          rw [henc] at hj2 ⊢
          simp only [List.length_cons, List.length_nil] at hj2
          interval_cases j <;> · simp [List.getD, contByte]; omega
        · have henc : utf8EncodeChar c = [0xF0 + c.toNat / 262144, 0x80 + c.toNat / 4096 % 64,
              0x80 + c.toNat / 64 % 64, 0x80 + c.toNat % 64] := by
            simp [utf8EncodeChar, h1, h2, h3]
          rw [henc] at hj2 ⊢
          simp only [List.length_cons, List.length_nil] at hj2
          interval_cases j <;> · simp [List.getD, contByte]; omega
    have hlenapp : (bs ++ utf8EncodeChar c).length = bs.length + (utf8EncodeChar c).length := by
      simp
    have hlast : contByte ((bs ++ utf8EncodeChar c).getD
        (bs.length + (utf8EncodeChar c).length - 1) 0) = true := by
      rw [show bs.length + (utf8EncodeChar c).length - 1
          = bs.length + ((utf8EncodeChar c).length - 1) by omega, getD_append_right']
      exact hcont _ (by omega) (by omega)
    have hscan : scanBackStart (bs ++ utf8EncodeChar c)
        ((bs ++ utf8EncodeChar c).length - 2) ((bs ++ utf8EncodeChar c).length - 4)
        = some bs.length := by
      rw [hlenapp, show bs.length + (utf8EncodeChar c).length - 2
          = bs.length + ((utf8EncodeChar c).length - 2) by omega]
      apply scanBackStart_through
      · intro j hj1 hj2
        rw [getD_append_right']
        exact hcont j hj1 (by omega)
      · exact hb0
      · omega
    simp only [decodeLastRune]
    rw [if_neg (by rw [hlenapp]; omega)]
    have hlastv : ¬ ((bs ++ utf8EncodeChar c).getD ((bs ++ utf8EncodeChar c).length - 1) 0 < 0x80) := by
      rw [hlenapp, show bs.length + (utf8EncodeChar c).length - 1
          = bs.length + ((utf8EncodeChar c).length - 1) by omega]
      have hcb := hcont ((utf8EncodeChar c).length - 1) (by omega) (by omega)
      rw [getD_append_right']
      simp only [contByte, decide_eq_true_eq] at hcb
      omega
    rw [if_neg hlastv]
    rw [if_neg (show ¬ ((bs ++ utf8EncodeChar c).length - 2 < (bs ++ utf8EncodeChar c).length - 4) by omega)]
    rw [hscan]
    rw [hdrop, hdec]
    rw [if_pos (by rw [hlenapp])]

/-! ## Foundational lemmas: the reader inverts the writer, field level -/

theorem strBytes_append (a b : List Char) : strBytes (a ++ b) = strBytes a ++ strBytes b := by
  simp [strBytes]

theorem strBytes_suffix {cs' cs : List Char} (h : cs' <:+ cs) :
    strBytes cs' <:+ strBytes cs := by
  obtain ⟨t, ht⟩ := h
  exact ⟨strBytes t, by rw [← strBytes_append, ht]⟩

theorem nextIsBytes_fst_false {buf : Bytes} {e : GoErr} {bs : Bytes}
    (h : buf.take bs.length ≠ bs) : (nextIsBytes ⟨buf, e⟩ bs).1 = false := by
  simp only [nextIsBytes, RState.peek]
  split_ifs with hle
  · simpa using h
  · have hne : buf ≠ bs := fun hc => h (by rw [hc, List.take_length])
    simpa using hne

theorem infix_of_prefix_suffix {l₁ l₂ l₃ : Bytes} (h1 : l₁ <+: l₂) (h2 : l₂ <:+ l₃) :
    l₁ <:+: l₃ :=
  List.infix_iff_prefix_suffix.2 ⟨l₂, h1, h2⟩

/-- A line terminator match cannot start inside or at the end of an
unquoted field that is followed by the delimiter. -/
theorem take_ne_lt_delim {d : Dialect} (hd : GoodDialect d) {F : Bytes} (u mid : Bytes)
    (hsuf : u <:+ F) (hnc : containsStr F d.lineTerminator = false) :
    (u ++ (utf8EncodeChar d.delimiter ++ mid)).take d.lineTerminator.length
      ≠ d.lineTerminator := by
  intro h
  by_cases hlen : d.lineTerminator.length ≤ u.length
  · rw [List.take_append_of_le_length hlen] at h
    have hpre : d.lineTerminator <+: u := List.prefix_iff_eq_take.2 h.symm
    have hinf : d.lineTerminator <:+: F := infix_of_prefix_suffix hpre hsuf
    rw [← containsStr_iff] at hinf
    rw [hinf] at hnc
    simp at hnc
  · have hδ : utf8EncodeChar d.delimiter = [d.delimiter.toNat] := by
      simp [utf8EncodeChar, hd.delim_ascii]
    rw [List.take_append_eq_append_take, List.take_of_length_le (by omega), hδ] at h
    have hpos : 0 < d.lineTerminator.length - u.length := by omega
    have hmem : d.delimiter.toNat ∈ d.lineTerminator := by
      rw [← h]
      cases hk : d.lineTerminator.length - u.length with
      | zero => omega
      | succ k =>
        simp [List.take_cons]
    exact (hd.lt_byte_good _ hmem).2.1 rfl

/-- A line terminator match cannot start strictly inside an unquoted
field that is directly followed by the line terminator itself. -/
theorem take_ne_lt_ltself {d : Dialect} (hd : GoodDialect d) {F : Bytes} (u rest : Bytes)
    (hsuf : u <:+ F) (hu : u ≠ []) (hnc : containsStr F d.lineTerminator = false) :
    (u ++ (d.lineTerminator ++ rest)).take d.lineTerminator.length ≠ d.lineTerminator := by
  intro h
  by_cases hlen : d.lineTerminator.length ≤ u.length
  · rw [List.take_append_of_le_length hlen] at h
    have hinf : d.lineTerminator <:+: F :=
      infix_of_prefix_suffix (List.prefix_iff_eq_take.2 h.symm) hsuf
    rw [← containsStr_iff] at hinf
    rw [hinf] at hnc
    simp at hnc
  · rw [List.take_append_eq_append_take, List.take_of_length_le (by omega),
      List.take_append_of_le_length (by omega)] at h
    have hu2 := congrArg (List.take u.length) h
    rw [List.take_append_of_le_length le_rfl, List.take_length] at hu2
    have hdrop2 := congrArg (List.drop u.length) h
    rw [List.drop_left] at hdrop2
    have hap := hd.lt_aperiodic u.length
      (by cases u with | nil => exact absurd rfl hu | cons a t => simp) (by omega)
    exact hap hdrop2.symm

theorem take_ne_lt_eof {d : Dialect} {F : Bytes} (u : Bytes)
    (hsuf : u <:+ F) (hnc : containsStr F d.lineTerminator = false) :
    u.take d.lineTerminator.length ≠ d.lineTerminator := by
  intro h
  by_cases hlen : d.lineTerminator.length ≤ u.length
  · have hinf : d.lineTerminator <:+: F :=
      infix_of_prefix_suffix (List.prefix_iff_eq_take.2 h.symm) hsuf
    rw [← containsStr_iff] at hinf
    rw [hinf] at hnc
    simp at hnc
  · rw [List.take_of_length_le (by omega)] at h
    have := congrArg List.length h
    omega

theorem readUnquotedLoopF_delim (d : Dialect) (hd : GoodDialect d) (F : List Char)
    (hδ : d.delimiter ∉ F) (hnc : containsStr (strBytes F) d.lineTerminator = false)
    (mid : Bytes) (e : GoErr) :
    ∀ (cs : List Char), cs <:+ F →
      ∀ (fuel : Nat) (s : Bytes), (strBytes cs).length + 1 ≤ fuel →
        readUnquotedLoopF d fuel s ⟨strBytes cs ++ (utf8EncodeChar d.delimiter ++ mid), e⟩ =
          ((s ++ strBytes cs, none), ⟨utf8EncodeChar d.delimiter ++ mid, e⟩) := by
  intro cs
  induction cs with
  | nil =>
    intro _ fuel s hfuel
    cases fuel with
    | zero => omega
    | succ fuel =>
      simp only [strBytes, List.map_nil, List.flatten_nil, List.nil_append]
      simp only [readUnquotedLoopF, readRune_encode d.delimiter mid e]
      simp [List.append_nil]
  | cons c cs ih =>
    intro hsuf fuel s hfuel
    have hsb : strBytes (c :: cs) = utf8EncodeChar c ++ strBytes cs := by
      simp [strBytes]
    have hpos := utf8EncodeChar_length_pos c
    rw [hsb] at hfuel ⊢
    rw [List.length_append] at hfuel
    cases fuel with
    | zero => omega
    | succ fuel =>
      rw [List.append_assoc]
      have hmemc : c ∈ F := hsuf.subset (List.mem_cons_self c cs)
      have hcδ : ¬ (c = d.delimiter) := fun hc => hδ (hc ▸ hmemc)
      have hlt : (nextIsBytes ⟨strBytes cs ++ (utf8EncodeChar d.delimiter ++ mid), e⟩
          d.lineTerminator).1 = false :=
        nextIsBytes_fst_false
          (take_ne_lt_delim hd _ mid (strBytes_suffix ((List.suffix_cons c cs).trans hsuf)) hnc)
      simp only [readUnquotedLoopF, readRune_encode c _ e, hcδ, if_false, hlt]
      show readUnquotedLoopF d fuel (s ++ utf8EncodeChar c)
          ⟨strBytes cs ++ (utf8EncodeChar d.delimiter ++ mid), e⟩ = _
      rw [ih ((List.suffix_cons c cs).trans hsuf) fuel (s ++ utf8EncodeChar c) (by omega)]
      simp [List.append_assoc]

theorem readUnquotedLoopF_ltself (d : Dialect) (hd : GoodDialect d) (F : List Char)
    (hδ : d.delimiter ∉ F) (hnc : containsStr (strBytes F) d.lineTerminator = false)
    (rest : Bytes) (e : GoErr) :
    ∀ (cs : List Char), cs <:+ F → cs ≠ [] →
      ∀ (fuel : Nat) (s : Bytes), (strBytes cs).length + 1 ≤ fuel →
        readUnquotedLoopF d fuel s ⟨strBytes cs ++ (d.lineTerminator ++ rest), e⟩ =
          ((s ++ strBytes cs, none), ⟨d.lineTerminator ++ rest, e⟩) := by
  intro cs
  induction cs with
  | nil => intro _ hne; exact absurd rfl hne
  | cons c cs ih =>
    intro hsuf _ fuel s hfuel
    have hsb : strBytes (c :: cs) = utf8EncodeChar c ++ strBytes cs := by
      simp [strBytes]
    have hpos := utf8EncodeChar_length_pos c
    rw [hsb] at hfuel ⊢
    rw [List.length_append] at hfuel
    cases fuel with
    | zero => omega
    | succ fuel =>
      rw [List.append_assoc]
      have hmemc : c ∈ F := hsuf.subset (List.mem_cons_self c cs)
      have hcδ : ¬ (c = d.delimiter) := fun hc => hδ (hc ▸ hmemc)
      cases cs with
      | nil =>
        have hfound : nextIsBytes ⟨d.lineTerminator ++ rest, e⟩ d.lineTerminator = (true, none) :=
          nextIsBytes_found _ _ _
        simp only [strBytes, List.map_nil, List.flatten_nil, List.nil_append]
        simp only [readUnquotedLoopF, readRune_encode c _ e, hcδ, if_false, hfound]
        simp [List.append_nil, strBytes]
      | cons c2 cs2 =>
        have hlt : (nextIsBytes ⟨strBytes (c2 :: cs2) ++ (d.lineTerminator ++ rest), e⟩
            d.lineTerminator).1 = false :=
          nextIsBytes_fst_false
            (take_ne_lt_ltself hd _ rest
              (strBytes_suffix ((List.suffix_cons c (c2 :: cs2)).trans hsuf))
              (by intro hx; rw [strBytes_eq_nil_iff] at hx; simp at hx)
              hnc)
        simp only [readUnquotedLoopF, readRune_encode c _ e, hcδ, if_false, hlt]
        show readUnquotedLoopF d fuel (s ++ utf8EncodeChar c)
            ⟨strBytes (c2 :: cs2) ++ (d.lineTerminator ++ rest), e⟩ = _
        rw [ih ((List.suffix_cons c (c2 :: cs2)).trans hsuf) (by simp) fuel
          (s ++ utf8EncodeChar c) (by omega)]
        simp [List.append_assoc]

theorem readUnquotedLoopF_eof (d : Dialect) (hd : GoodDialect d) (F : List Char)
    (hδ : d.delimiter ∉ F) (hnc : containsStr (strBytes F) d.lineTerminator = false)
    (e : GoErr) :
    ∀ (cs : List Char), cs <:+ F →
      ∀ (fuel : Nat) (s : Bytes), (strBytes cs).length + 1 ≤ fuel →
        readUnquotedLoopF d fuel s ⟨strBytes cs, e⟩ = ((s ++ strBytes cs, some e), ⟨[], e⟩) := by
  intro cs
  induction cs with
  | nil =>
    intro _ fuel s hfuel
    cases fuel with
    | zero => omega
    | succ fuel =>
      simp only [strBytes, List.map_nil, List.flatten_nil]
      simp only [readUnquotedLoopF, readRune_empty]
      simp [List.append_nil]
  | cons c cs ih =>
    intro hsuf fuel s hfuel
    have hsb : strBytes (c :: cs) = utf8EncodeChar c ++ strBytes cs := by
      simp [strBytes]
    have hpos := utf8EncodeChar_length_pos c
    rw [hsb] at hfuel ⊢
    rw [List.length_append] at hfuel
    cases fuel with
    | zero => omega
    | succ fuel =>
      have hmemc : c ∈ F := hsuf.subset (List.mem_cons_self c cs)
      have hcδ : ¬ (c = d.delimiter) := fun hc => hδ (hc ▸ hmemc)
      have hlt : (nextIsBytes ⟨strBytes cs, e⟩ d.lineTerminator).1 = false :=
        nextIsBytes_fst_false
          (take_ne_lt_eof _ (strBytes_suffix ((List.suffix_cons c cs).trans hsuf)) hnc)
      simp only [readUnquotedLoopF, readRune_encode c _ e, hcδ, if_false, hlt]
      show readUnquotedLoopF d fuel (s ++ utf8EncodeChar c) ⟨strBytes cs, e⟩ = _
      rw [ih ((List.suffix_cons c cs).trans hsuf) fuel (s ++ utf8EncodeChar c) (by omega)]
      simp [List.append_assoc]

theorem readQuotedLoopF_do (d : Dialect) (hd : GoodDialect d)
    (hdq : d.doubleQuote = .doDoubleQuote) (F : List Char) (hesc : d.escapeChar ∉ F)
    (tail : Bytes) (e : GoErr) (ct : Char)
    (htail : (RState.readRune ⟨tail, e⟩).1 = (ct, none)) (hct : ct ≠ d.quoteChar) :
    ∀ (cs : List Char), cs <:+ F →
      ∀ (fuel : Nat) (s : Bytes),
        ((cs.map (writeQuotedRune d)).flatten ++ (utf8EncodeChar d.quoteChar ++ tail)).length + 1
          ≤ fuel →
        readQuotedLoopF d fuel s
          ⟨(cs.map (writeQuotedRune d)).flatten ++ (utf8EncodeChar d.quoteChar ++ tail), e⟩ =
          ((s ++ strBytes cs, none), ⟨tail, e⟩) := by
  intro cs
  induction cs with
  | nil =>
    intro _ fuel s hfuel
    cases fuel with
    | zero => omega
    | succ fuel =>
      simp only [List.map_nil, List.flatten_nil, List.nil_append]
      simp only [readQuotedLoopF, readRune_encode d.quoteChar tail e, hdq]
      rw [if_neg (by simp)]
      simp only [htail]
      simp [hct, strBytes]
  | cons c cs ih =>
    intro hsuf fuel s hfuel
    have hmemc : c ∈ F := hsuf.subset (List.mem_cons_self c cs)
    have hcesc : c ≠ d.escapeChar := fun hc => hesc (hc ▸ hmemc)
    have hposc := utf8EncodeChar_length_pos c
    have hposq := utf8EncodeChar_length_pos d.quoteChar
    have hsb : strBytes (c :: cs) = utf8EncodeChar c ++ strBytes cs := by
      simp [strBytes]
    by_cases hcq : c = d.quoteChar
    · subst hcq
      have hw : writeQuotedRune d d.quoteChar
          = utf8EncodeChar d.quoteChar ++ utf8EncodeChar d.quoteChar := by
        simp [writeQuotedRune, writeEscapeChar, hdq, hd.quote_ne_esc]
      simp only [List.map_cons, List.flatten_cons, hw] at hfuel ⊢
      simp only [List.length_append] at hfuel
      cases fuel with
      | zero => omega
      | succ fuel =>
        rw [List.append_assoc, List.append_assoc]
        simp only [readQuotedLoopF, readRune_encode d.quoteChar _ e]
        rw [if_neg (by simp)]
        rw [hdq]
        simp only [readRune_encode d.quoteChar _ e, eq_self_iff_true, if_true]
        rw [ih ((List.suffix_cons _ cs).trans hsuf) fuel (s ++ utf8EncodeChar d.quoteChar)
          (by simp only [List.length_append] at *; omega)]
        rw [hsb, ← List.append_assoc]
    · have hw : writeQuotedRune d c = utf8EncodeChar c := by
        simp only [writeQuotedRune]
        rw [if_neg hcesc, if_neg hcq, List.nil_append]
      simp only [List.map_cons, List.flatten_cons, hw] at hfuel ⊢
      simp only [List.length_append] at hfuel
      cases fuel with
      | zero => omega
      | succ fuel =>
        rw [List.append_assoc]
        simp only [readQuotedLoopF, readRune_encode c _ e]
        rw [if_pos hcq]
        rw [ih ((List.suffix_cons _ cs).trans hsuf) fuel (s ++ utf8EncodeChar c)
          (by simp only [List.length_append] at *; omega)]
        rw [hsb, ← List.append_assoc]

theorem not_repl_size_one (c : Char) :
    ¬ ((decodeLastRune (bs ++ utf8EncodeChar c)).1 = replacementChar ∧
        (decodeLastRune (bs ++ utf8EncodeChar c)).2 = 1) := by
  rw [decodeLastRune_append]
  rintro ⟨h1, h2⟩
  simp only at h1 h2
  subst h1
  revert h2
  decide

theorem readQuotedLoopF_no (d : Dialect) (hd : GoodDialect d)
    (hdq : d.doubleQuote = .noDoubleQuote) (F : List Char) (hesc : d.escapeChar ∉ F)
    (tail : Bytes) (e : GoErr) :
    ∀ (cs g : List Char), g ++ cs = F →
      ∀ (fuel : Nat),
        ((cs.map (writeQuotedRune d)).flatten ++ (utf8EncodeChar d.quoteChar ++ tail)).length + 1
          ≤ fuel →
        readQuotedLoopF d fuel (strBytes g)
          ⟨(cs.map (writeQuotedRune d)).flatten ++ (utf8EncodeChar d.quoteChar ++ tail), e⟩ =
          ((strBytes F, none), ⟨tail, e⟩) := by
  intro cs
  induction cs with
  | nil =>
    intro g hg fuel hfuel
    cases fuel with
    | zero => omega
    | succ fuel =>
      rw [List.append_nil] at hg
      subst hg
      simp only [List.map_nil, List.flatten_nil, List.nil_append]
      simp only [readQuotedLoopF, readRune_encode d.quoteChar tail e, hdq]
      rw [if_neg (by simp)]
      cases hgshape : g.reverse with
      | nil =>
        have hgnil : g = [] := by
          have h2 := congrArg List.reverse hgshape
          simpa using h2
        subst hgnil
        simp [strBytes]
      | cons last init =>
        have hgdec : g = init.reverse ++ [last] := by
          have h2 := congrArg List.reverse hgshape
          simpa using h2
        have hsb : strBytes g = strBytes init.reverse ++ utf8EncodeChar last := by
          rw [hgdec, strBytes_append]
          simp [strBytes]
        have hlastmem : last ∈ g := by
          rw [hgdec]
          simp
        have hlastesc : last ≠ d.escapeChar := fun hc => hesc (hc ▸ hlastmem)
        have hlen0 : ¬ ((strBytes g).length = 0) := by
          rw [hsb]
          have h3 := utf8EncodeChar_length_pos last
          simp only [List.length_append]
          omega
        rw [if_neg hlen0, hsb, if_neg (not_repl_size_one last), decodeLastRune_append,
          if_neg (by simpa using hlastesc), ← hsb]
  | cons c cs ih =>
    intro g hg fuel hfuel
    have hmemc : c ∈ F := by
      rw [← hg]
      simp
    have hcesc : c ≠ d.escapeChar := fun hc => hesc (hc ▸ hmemc)
    have hposc := utf8EncodeChar_length_pos c
    have hposq := utf8EncodeChar_length_pos d.quoteChar
    have hpose := utf8EncodeChar_length_pos d.escapeChar
    by_cases hcq : c = d.quoteChar
    · subst hcq
      have hw : writeQuotedRune d d.quoteChar
          = utf8EncodeChar d.escapeChar ++ utf8EncodeChar d.quoteChar := by
        simp [writeQuotedRune, writeEscapeChar, hdq, hd.quote_ne_esc]
      simp only [List.map_cons, List.flatten_cons, hw] at hfuel ⊢
      simp only [List.length_append] at hfuel
      cases fuel with
      | zero => omega
      | succ fuel =>
        rw [List.append_assoc, List.append_assoc]
        simp only [readQuotedLoopF, readRune_encode d.escapeChar _ e]
        rw [if_pos (Ne.symm hd.quote_ne_esc)]
        cases fuel with
        | zero => omega
        | succ fuel =>
          simp only [readQuotedLoopF, readRune_encode d.quoteChar _ e]
          rw [if_neg (show ¬ (d.quoteChar ≠ d.quoteChar) from by simp), hdq]
          have hlen0 : ¬ ((strBytes g ++ utf8EncodeChar d.escapeChar).length = 0) := by
            simp only [List.length_append]
            omega
          have htrunc : (strBytes g ++ utf8EncodeChar d.escapeChar).take
              ((strBytes g ++ utf8EncodeChar d.escapeChar).length
                - (utf8EncodeChar d.quoteChar).length) = strBytes g := by
            have hesc_ascii : utf8EncodeChar d.escapeChar = [d.escapeChar.toNat] := by
              simp [utf8EncodeChar, hd.esc_ascii]
            have hq_ascii : utf8EncodeChar d.quoteChar = [d.quoteChar.toNat] := by
              simp [utf8EncodeChar, hd.quote_ascii]
            rw [hesc_ascii, hq_ascii]
            simp only [List.length_append, List.length_singleton]
            rw [show (strBytes g).length + 1 - 1 = (strBytes g).length from by omega]
            exact List.take_left _ _
          rw [if_neg hlen0, if_neg (not_repl_size_one d.escapeChar), decodeLastRune_append,
            if_pos rfl, htrunc]
          have hrec := ih (g ++ [d.quoteChar]) (by rw [← hg]; simp) fuel
            (by simp only [List.length_append] at *; omega)
          rw [strBytes_append] at hrec
          simp only [strBytes, List.map_cons, List.map_nil, List.flatten_cons,
            List.flatten_nil, List.append_nil] at hrec ⊢
          exact hrec
    · have hw : writeQuotedRune d c = utf8EncodeChar c := by
        simp only [writeQuotedRune]
        rw [if_neg hcesc, if_neg hcq, List.nil_append]
      simp only [List.map_cons, List.flatten_cons, hw] at hfuel ⊢
      simp only [List.length_append] at hfuel
      cases fuel with
      | zero => omega
      | succ fuel =>
        rw [List.append_assoc]
        simp only [readQuotedLoopF, readRune_encode c _ e]
        rw [if_pos hcq]
        have hrec := ih (g ++ [c]) (by rw [← hg]; simp) fuel
          (by simp only [List.length_append] at *; omega)
        rw [strBytes_append] at hrec
        simp only [strBytes, List.map_cons, List.map_nil, List.flatten_cons,
          List.flatten_nil, List.append_nil] at hrec ⊢
        exact hrec

theorem charToNat_ofNat_lt {n : Nat} (h : n < 0xD800) : (Char.ofNat n).toNat = n := by
  have hv : n.isValidChar := Or.inl h
  simp [Char.ofNat, hv, Char.toNat, Char.ofNatAux]
  rfl

theorem readRune_ascii {b : Nat} (hb : b < 0x80) (t : Bytes) (e : GoErr) :
    RState.readRune ⟨b :: t, e⟩ = ((Char.ofNat b, none), ⟨t, e⟩) := by
  simp [RState.readRune, utf8DecodeFirst, hb]

theorem take_ne_of_head_notmem {x : Nat} {X LT : Bytes} (hLT : LT ≠ []) (hx : x ∉ LT) :
    (x :: X).take LT.length ≠ LT := by
  cases LT with
  | nil => exact absurd rfl hLT
  | cons b l =>
    simp only [List.length_cons, List.take_succ_cons]
    intro h
    have : x = b := (List.cons.injEq _ _ _ _ ▸ h).1
    exact hx (this ▸ List.mem_cons_self b l)

theorem writeQuoted_map (d : Dialect) (F : List Char) :
    writeQuoted d (strBytes F) =
      utf8EncodeChar d.quoteChar ++ ((F.map (writeQuotedRune d)).flatten
        ++ utf8EncodeChar d.quoteChar) := by
  rw [writeQuoted, utf8Chars_strBytes, List.append_assoc]

theorem readQuotedField_do (d : Dialect) (hd : GoodDialect d)
    (hdq : d.doubleQuote = .doDoubleQuote) (F : List Char) (hesc : d.escapeChar ∉ F)
    (tail : Bytes) (e : GoErr) (ct : Char)
    (htail : (RState.readRune ⟨tail, e⟩).1 = (ct, none)) (hct : ct ≠ d.quoteChar) :
    readQuotedField d ⟨writeQuoted d (strBytes F) ++ tail, e⟩ =
      ((strBytes F, none), ⟨tail, e⟩) := by
  rw [writeQuoted_map, List.append_assoc, List.append_assoc]
  simp only [readQuotedField, readRune_encode d.quoteChar _ e]
  rw [if_neg (show ¬ (d.quoteChar ≠ d.quoteChar) from by simp)]
  have h := readQuotedLoopF_do d hd hdq F hesc tail e ct htail hct F List.suffix_rfl
    (((F.map (writeQuotedRune d)).flatten ++ (utf8EncodeChar d.quoteChar ++ tail)).length + 1)
    [] le_rfl
  simpa using h

theorem readQuotedField_no (d : Dialect) (hd : GoodDialect d)
    (hdq : d.doubleQuote = .noDoubleQuote) (F : List Char) (hesc : d.escapeChar ∉ F)
    (tail : Bytes) (e : GoErr) :
    readQuotedField d ⟨writeQuoted d (strBytes F) ++ tail, e⟩ =
      ((strBytes F, none), ⟨tail, e⟩) := by
  rw [writeQuoted_map, List.append_assoc, List.append_assoc]
  simp only [readQuotedField, readRune_encode d.quoteChar _ e]
  rw [if_neg (show ¬ (d.quoteChar ≠ d.quoteChar) from by simp)]
  have h := readQuotedLoopF_no d hd hdq F hesc tail e F [] rfl
    (((F.map (writeQuotedRune d)).flatten ++ (utf8EncodeChar d.quoteChar ++ tail)).length + 1)
    le_rfl
  simpa [strBytes] using h

theorem readField_run (d : Dialect) (hd : GoodDialect d) (F : List Char)
    (hsafe : SafeField d F) (tail : Bytes) (e : GoErr)
    (htail : (∃ mid, tail = utf8EncodeChar d.delimiter ++ mid) ∨
      (∃ rest, tail = d.lineTerminator ++ rest))
    (hminlen : d.lineTerminator.length ≤ tail.length) :
    readField d ⟨writeField d (strBytes F) ++ tail, e⟩ = ((strBytes F, none), ⟨tail, e⟩) := by
  have hqdelim : utf8EncodeChar d.delimiter = [d.delimiter.toNat] := by
    simp [utf8EncodeChar, hd.delim_ascii]
  have hqq : utf8EncodeChar d.quoteChar = [d.quoteChar.toNat] := by
    simp [utf8EncodeChar, hd.quote_ascii]
  have hctfact : ∃ ct, (RState.readRune ⟨tail, e⟩).1 = (ct, none) ∧ ct ≠ d.quoteChar := by
    rcases htail with ⟨mid, rfl⟩ | ⟨rest, rfl⟩
    · exact ⟨d.delimiter, by rw [readRune_encode], hd.delim_ne_quote⟩
    · cases hlt : d.lineTerminator with
      | nil => exact absurd hlt hd.lt_ne_nil
      | cons b l =>
        have hb := hd.lt_byte_good b (by rw [hlt]; simp)
        refine ⟨Char.ofNat b, ?_, ?_⟩
        · rw [List.cons_append, readRune_ascii (by omega)]
        · intro hc
          have := congrArg Char.toNat hc
          rw [charToNat_ofNat_lt (by omega)] at this
          exact hb.2.2.1 this
  obtain ⟨ct, hct1, hct2⟩ := hctfact
  by_cases hq : fieldNeedsQuote d (strBytes F) = true
  · have hwf : writeField d (strBytes F) = writeQuoted d (strBytes F) := by
      rw [writeField, if_pos hq]
    have hstream : writeQuoted d (strBytes F) ++ tail
        = d.quoteChar.toNat :: (((F.map (writeQuotedRune d)).flatten
          ++ utf8EncodeChar d.quoteChar) ++ tail) := by
      rw [writeQuoted_map, hqq]
      simp [List.append_assoc]
    have hcheck : nextIsBytes ⟨writeQuoted d (strBytes F) ++ tail, e⟩ d.lineTerminator
        = (false, none) := by
      apply nextIsBytes_miss
      · rw [hstream]
        simp only [List.length_cons, List.length_append]
        omega
      · rw [hstream]
        exact take_ne_of_head_notmem hd.lt_ne_nil
          (fun hmem => (hd.lt_byte_good _ hmem).2.2.1 rfl)
    have hpeek : (RState.peekRune ⟨writeQuoted d (strBytes F) ++ tail, e⟩)
        = (d.quoteChar, none) := by
      rw [RState.peekRune, writeQuoted_map, List.append_assoc, List.append_assoc,
        readRune_encode]
    have hc1 : (nextIsBytes ⟨writeQuoted d (strBytes F) ++ tail, e⟩ d.lineTerminator).1
        = false := by rw [hcheck]
    have hc2 : (nextIsBytes ⟨writeQuoted d (strBytes F) ++ tail, e⟩ d.lineTerminator).2
        = none := by rw [hcheck]
    have hp1 : (RState.peekRune ⟨writeQuoted d (strBytes F) ++ tail, e⟩).1 = d.quoteChar := by
      rw [hpeek]
    have hp2 : (RState.peekRune ⟨writeQuoted d (strBytes F) ++ tail, e⟩).2 = none := by
      rw [hpeek]
    rw [hwf]
    simp only [readField, hc1, hc2, hp1, hp2]
    rw [if_neg (by simp)]
    simp only [if_true]
    rcases hd.dq_good with hdq | hdq
    · exact readQuotedField_do d hd hdq F hsafe.1 tail e ct hct1 hct2
    · exact readQuotedField_no d hd hdq F hsafe.1 tail e
  · have hq' : fieldNeedsQuote d (strBytes F) = false := by
      simpa using hq
    obtain ⟨hnc, hδ, hhead⟩ := hsafe.2 hq'
    have hwf : writeField d (strBytes F) = strBytes F := by
      rw [writeField, hq']
      simp
    rw [hwf]
    cases F with
    | nil =>
      simp only [strBytes, List.map_nil, List.flatten_nil, List.nil_append]
      rcases htail with ⟨mid, rfl⟩ | ⟨rest, rfl⟩
      · have hcheck : nextIsBytes ⟨utf8EncodeChar d.delimiter ++ mid, e⟩ d.lineTerminator
            = (false, none) := by
          apply nextIsBytes_miss
          · omega
          · rw [hqdelim, List.cons_append]
            exact take_ne_of_head_notmem hd.lt_ne_nil
              (fun hmem => (hd.lt_byte_good _ hmem).2.1 rfl)
        have hpeek : (RState.peekRune ⟨utf8EncodeChar d.delimiter ++ mid, e⟩)
            = (d.delimiter, none) := by
          rw [RState.peekRune, readRune_encode]
        have hc1 : (nextIsBytes ⟨utf8EncodeChar d.delimiter ++ mid, e⟩ d.lineTerminator).1
            = false := by rw [hcheck]
        have hc2 : (nextIsBytes ⟨utf8EncodeChar d.delimiter ++ mid, e⟩ d.lineTerminator).2
            = none := by rw [hcheck]
        have hp1 : (RState.peekRune ⟨utf8EncodeChar d.delimiter ++ mid, e⟩).1 = d.delimiter := by
          rw [hpeek]
        have hp2 : (RState.peekRune ⟨utf8EncodeChar d.delimiter ++ mid, e⟩).2 = none := by
          rw [hpeek]
        simp only [readField, hc1, hc2, hp1, hp2]
        rw [if_neg (by simp)]
        rw [if_neg hd.delim_ne_quote]
        have hloop := readUnquotedLoopF_delim d hd [] (by simp)
          (by simp [strBytes, containsStr]; exact fun hc => hd.lt_ne_nil (by simp [hc])) mid e
          [] List.suffix_rfl ((utf8EncodeChar d.delimiter ++ mid).length + 1) []
          (by simp [strBytes])
        simp only [strBytes, List.map_nil, List.flatten_nil, List.nil_append] at hloop
        rw [readUnquotedField]
        exact hloop
      · have hc1 : (nextIsBytes ⟨d.lineTerminator ++ rest, e⟩ d.lineTerminator).1 = true := by
          rw [nextIsBytes_found]
        have hc2 : (nextIsBytes ⟨d.lineTerminator ++ rest, e⟩ d.lineTerminator).2 = none := by
          rw [nextIsBytes_found]
        simp only [readField, hc1, hc2]
        rw [if_pos (by simp)]
    | cons c F' =>
      have hstream : strBytes (c :: F') ++ tail
          = utf8EncodeChar c ++ (strBytes F' ++ tail) := by
        simp [strBytes, List.append_assoc]
      have hne : strBytes (c :: F') ≠ [] := by
        rw [Ne, strBytes_eq_nil_iff]
        simp
      have hcheck : nextIsBytes ⟨strBytes (c :: F') ++ tail, e⟩ d.lineTerminator
          = (false, none) := by
        apply nextIsBytes_miss
        · simp only [List.length_append]
          omega
        · rcases htail with ⟨mid, rfl⟩ | ⟨rest, rfl⟩
          · exact take_ne_lt_delim hd _ mid List.suffix_rfl hnc
          · exact take_ne_lt_ltself hd _ rest List.suffix_rfl hne hnc
      have hpk : RState.peekRune ⟨strBytes (c :: F') ++ tail, e⟩ = (c, none) := by
        rw [RState.peekRune, hstream, readRune_encode]
      have hc1 : (nextIsBytes ⟨strBytes (c :: F') ++ tail, e⟩ d.lineTerminator).1 = false := by
        rw [hcheck]
      have hc2 : (nextIsBytes ⟨strBytes (c :: F') ++ tail, e⟩ d.lineTerminator).2 = none := by
        rw [hcheck]
      have hp1 : (RState.peekRune ⟨strBytes (c :: F') ++ tail, e⟩).1 = c := by rw [hpk]
      have hp2 : (RState.peekRune ⟨strBytes (c :: F') ++ tail, e⟩).2 = none := by rw [hpk]
      have hcq : ¬ (c = d.quoteChar) := fun hc => hhead (by rw [hc]; rfl)
      simp only [readField, hc1, hc2, hp1, hp2]
      rw [if_neg (by simp)]
      rw [if_neg hcq]
      rw [readUnquotedField]
      rcases htail with ⟨mid, rfl⟩ | ⟨rest, rfl⟩
      · have hloop := readUnquotedLoopF_delim d hd (c :: F') hδ hnc mid e (c :: F')
          List.suffix_rfl ((strBytes (c :: F') ++ (utf8EncodeChar d.delimiter ++ mid)).length + 1)
          [] (by simp only [List.length_append]; omega)
        simpa using hloop
      · have hloop := readUnquotedLoopF_ltself d hd (c :: F') hδ hnc rest e (c :: F')
          List.suffix_rfl (by simp) ((strBytes (c :: F') ++ (d.lineTerminator ++ rest)).length + 1)
          [] (by simp only [List.length_append]; omega)
        simpa using hloop

/-! ## Concrete claims about defaults, comments and escape decoding -/

/-- C2, counterexample: under the unset (zero-value) dialect a line whose
first character is `'#'` IS skipped as a comment: decoding
`"#x\na,b\n"` yields only the record `["a","b"]`, so the claim's
"no input line is ever skipped as a comment" is false on the code
(`setDefaults` forces `Comment = '#'`). -/
theorem default_dialect_skips_comment_line :
    dialectReadAll zeroDialect ⟨gostr "#x\na,b\n", .eof⟩ =
      (([[gostr "a", gostr "b"]], none), ⟨[], .eof⟩) := by decide

/-- C2 (amended): a zero-value `Dialect` resolves to delimiter `','`,
Minimal quoting, DoubleQuote escaping, escape `'\\'`, quote `'"'`,
line terminator `"\n"`, and comment marker `'#'` — so under the default
dialect a line whose first non-whitespace character is `'#'` is skipped;
e.g. decoding `"#c\nz\n"` yields exactly `[["z"]]`. -/
theorem default_dialect_resolution :
    zeroDialect.setDefaults = resolvedDefaultDialect ∧
      dialectReadAll zeroDialect ⟨gostr "#c\nz\n", .eof⟩ =
        (([[gostr "z"]], none), ⟨[], .eof⟩) := by
  constructor
  · decide
  · decide

/-- C7: with the default dialect (comment marker `'#'`), decoding
`"#-,-,-\n   #aa\na,b,c\n\t#aa#aaaa\nd,e,f\n"` yields exactly the two
records `["a","b","c"]` and `["d","e","f"]`, with the clean (nil-error)
end-of-stream result of `ReadAll`. -/
theorem comments_scenario_two_records :
    dialectReadAll zeroDialect ⟨gostr "#-,-,-\n   #aa\na,b,c\n\t#aa#aaaa\nd,e,f\n", .eof⟩ =
      (([[gostr "a", gostr "b", gostr "c"], [gostr "d", gostr "e", gostr "f"]], none),
        ⟨[], .eof⟩) := by decide

/-- C3, failing execution: the writer encodes the one-character field
`"` as `"é""` (bytes `[34,195,169,34,34]`); `readQuotedField` should
therefore decode the field back to `"` (bytes `[34]`), but
`Truncate(s.Len() - utf8.RuneLen(char))` removes only `utf8.RuneLen('"')
= 1` of the two bytes of the trailing escape character `'é'`, so the
scanner returns the malformed bytes `[195, 34]` instead. -/
theorem multibyte_escape_truncation_bug :
    writeQuoted multibyteEscDialect (gostr "\"") = [34, 195, 169, 34, 34] ∧
      readQuotedField multibyteEscDialect ⟨[34, 195, 169, 34, 34], .eof⟩ =
        (([195, 34], none), ⟨[], .eof⟩) ∧
      [195, 34] ≠ gostr "\"" := by
  refine ⟨by decide, by decide, by decide⟩

/-- C6, failing execution: with the default dialect (comment marker
`'#'`), the line `"#a b"` begins with the comment character and should
contribute no record, but `skipComments` returns as soon as it meets the
space inside the comment text, so the tail `" b"` of the comment line is
decoded as a data record: the input `"#a b\nx\n"` yields
`[[" b"], ["x"]]` instead of `[["x"]]`. -/
theorem comment_with_space_not_skipped :
    dialectReadAll zeroDialect ⟨gostr "#a b\nx\n", .eof⟩ =
      (([[gostr " b"], [gostr "x"]], none), ⟨[], .eof⟩) ∧
      [[gostr " b"], [gostr "x"]] ≠ [[gostr "x"]] := by
  refine ⟨by decide, by decide⟩


/-! ## Minimal quoting (C4) and the numeric test (C5) -/

/-- C4: under Minimal quoting, `writeField` surrounds the field with the
quote character exactly when the field contains the line-terminator
string, the delimiter character, or the quote character (the condition
`specMinimalCond`, stated on the runes of the field); otherwise the field
bytes are written verbatim. -/
theorem minimal_quoting_exact (d : Dialect) (cs : List Char) (h : d.quoting = .quoteMinimal) :
    writeField d (strBytes cs) =
      if specMinimalCond d cs = true then
        utf8EncodeChar d.quoteChar ++ (cs.map (writeQuotedRune d)).flatten
          ++ utf8EncodeChar d.quoteChar
      else strBytes cs := by
  have hfq : fieldNeedsQuote d (strBytes cs) = specMinimalCond d cs := by
    simp only [fieldNeedsQuote, h, specMinimalCond, containsRune_strBytes]
  rw [writeField, hfq]
  cases hc : specMinimalCond d cs
  · simp
  · simp [writeQuoted, utf8Chars_strBytes]

theorem minimal_quoting_exact_witness :
    resolvedDefaultDialect.quoting = .quoteMinimal ∧
      writeField resolvedDefaultDialect (strBytes ['a', ',']) =
        (if specMinimalCond resolvedDefaultDialect ['a', ','] = true then
          utf8EncodeChar resolvedDefaultDialect.quoteChar
            ++ (['a', ','].map (writeQuotedRune resolvedDefaultDialect)).flatten
            ++ utf8EncodeChar resolvedDefaultDialect.quoteChar
        else strBytes ['a', ',']) :=
  ⟨rfl, minimal_quoting_exact resolvedDefaultDialect ['a', ','] rfl⟩

/-- C5, counterexample: the code's numeric test accepts `".."`, which has
two dots, so "additionally permitting a single `.`" misdescribes the
code (`isNumeric` permits any number of dots). -/
theorem isNumeric_two_dots_counterexample :
    isNumeric (strBytes ['.', '.']) = true ∧ specNumericSingleDot ['.', '.'] = false := by
  refine ⟨by decide, by decide⟩

/-- C5 (amended): the numeric test holds iff the string is non-empty and
every rune is a decimal digit or `'.'` (any number of dots); the empty
string is never numeric; and under NonNumericNonEmpty quoting a field is
quoted iff it is neither numeric in that sense nor empty. -/
theorem isNumeric_exact (cs : List Char) :
    isNumeric (strBytes cs) = specNumericAnyDots cs ∧
    isNumeric [] = false ∧
    (∀ d : Dialect, d.quoting = .quoteNonNumericNonEmpty →
      fieldNeedsQuote d (strBytes cs) = !(specNumericAnyDots cs || cs.isEmpty)) := by
  have hlen : ((strBytes cs).length = 0) ↔ cs = [] := by
    rw [List.length_eq_zero, strBytes_eq_nil_iff]
  have hnum : isNumeric (strBytes cs) = specNumericAnyDots cs := by
    rw [Bool.eq_iff_iff]
    unfold isNumeric specNumericAnyDots
    by_cases h : cs = []
    · subst h
      simp [strBytes]
    · rw [if_neg (fun hc => h (hlen.1 hc)), utf8Chars_strBytes]
      simp [List.all_eq_true, List.isEmpty_iff, h, Bool.or_comm]
  have hemp : isEmpty (strBytes cs) = cs.isEmpty := by
    rw [Bool.eq_iff_iff]
    simp [isEmpty, hlen, List.isEmpty_iff]
  refine ⟨hnum, rfl, fun d hd => ?_⟩
  simp only [fieldNeedsQuote, hd, hnum, hemp]

theorem isNumeric_exact_witness :
    ({ resolvedDefaultDialect with quoting := .quoteNonNumericNonEmpty } : Dialect).quoting
        = .quoteNonNumericNonEmpty ∧
      fieldNeedsQuote { resolvedDefaultDialect with quoting := .quoteNonNumericNonEmpty }
        (strBytes ['1', '2']) = !(specNumericAnyDots ['1', '2'] || (['1', '2'] : List Char).isEmpty) :=
  ⟨rfl, (isNumeric_exact ['1', '2']).2.2 _ rfl⟩

/-! ## ReadAll error contract (C9) and non-empty records (C10) -/

theorem readLoopF_ne_nil (d : Dialect) : ∀ (fuel : Nat) (acc : List Bytes) (st : RState),
    (readLoopF d fuel acc st).1.2 = none → (readLoopF d fuel acc st).1.1 ≠ [] := by
  intro fuel
  induction fuel with
  | zero =>
    intro acc st h
    simp [readLoopF] at h
  | succ fuel ih =>
    intro acc st h
    cases hrf : (readField d st).1.2 with
    | some e => simp [readLoopF, hrf] at h
    | none =>
      simp only [readLoopF, hrf] at h ⊢
      by_cases hlt : (nextIsBytes (readField d st).2 d.lineTerminator).1
      · simp only [hlt, if_true] at h ⊢
        simp
      · by_cases hdel : (nextIsBytes (readField d st).2 (utf8EncodeChar d.delimiter)).1
        · simp only [hlt, if_false, hdel, if_true] at h ⊢
          exact ih _ _ h
        · simp only [hlt, if_false, hdel] at h ⊢
          simp

/-- C10: whenever `Read` returns with a nil error the record has at
least one field (every nil-error return of the field loop happens after a
field was appended), and decoding a line consisting of only the line
terminator yields exactly one empty field. -/
theorem read_nonempty_record :
    (∀ (d : Dialect) (st : RState),
        (dialectRead d st).1.2 = none → (dialectRead d st).1.1 ≠ []) ∧
      dialectRead zeroDialect ⟨[10], .eof⟩ = (([[]], none), ⟨[], .eof⟩) := by
  constructor
  · intro d st h
    unfold dialectRead readRecord at h ⊢
    cases hsc : (skipComments d.setDefaults st).1 with
    | some e => simp [hsc] at h
    | none =>
      simp only [hsc] at h ⊢
      exact readLoopF_ne_nil _ _ _ _ h
  · decide

theorem read_nonempty_record_witness :
    (dialectRead zeroDialect ⟨gostr "a\n", .eof⟩).1.2 = none ∧
      (dialectRead zeroDialect ⟨gostr "a\n", .eof⟩).1.1 ≠ [] :=
  ⟨by decide, read_nonempty_record.1 zeroDialect ⟨gostr "a\n", .eof⟩ (by decide)⟩

theorem readAllF_contract (d : Dialect) : ∀ (fuel : Nat) (rows : List (List Bytes)) (st : RState),
    (readAllF d fuel rows st).1.2 = none ∨
      ((readAllF d fuel rows st).1.1 = [] ∧ (readAllF d fuel rows st).1.2 = some .other) := by
  intro fuel
  induction fuel with
  | zero =>
    intro rows st
    exact Or.inr ⟨rfl, rfl⟩
  | succ fuel ih =>
    intro rows st
    cases hr : (readRecord d st).1.2 with
    | some e =>
      cases e
      · simp [readAllF, hr]
      · simp [readAllF, hr]
    | none =>
      simp only [readAllF, hr]
      exact ih _ _

/-- C9: `ReadAll` either ends cleanly (nil error) or returns an empty
(nil) row slice with the non-EOF error; concretely, for `"a,b\nc"` over a
source whose terminal error is not EOF the successfully read record
`["a","b"]` is discarded and `(nil, err)` returned, while the same data
with a clean EOF ending returns all records with a nil error. -/
theorem readAll_error_contract :
    (∀ (d : Dialect) (st : RState),
        (dialectReadAll d st).1.2 = none ∨
          ((dialectReadAll d st).1.1 = [] ∧ (dialectReadAll d st).1.2 = some .other)) ∧
      dialectReadAll zeroDialect ⟨gostr "a,b\nc", .other⟩ = (([], some .other), ⟨[], .other⟩) ∧
      dialectReadAll zeroDialect ⟨gostr "a,b\nc\n", .eof⟩ =
        (([[gostr "a", gostr "b"], [gostr "c"]], none), ⟨[], .eof⟩) := by
  refine ⟨fun d st => ?_, by decide, by decide⟩
  unfold dialectReadAll readAllRecords
  exact readAllF_contract _ _ _ _

end GoCsv

namespace GoCsv

theorem getD_take_lt {l : Bytes} {n m : Nat} (h : m < n) : (l.take n).getD m 0 = l.getD m 0 := by
  simp only [List.getD_eq_getElem?_getD]
  rw [List.getElem?_take]
  simp [h]

theorem skipCommentsF_noop (d : Dialect) (st : RState) (i : Nat)
    (hi : i < st.buf.length)
    (hws : ∀ j, j < i → st.buf.getD j 0 = 32 ∨ st.buf.getD j 0 = 9)
    (hnw : ¬(st.buf.getD i 0 = 32 ∨ st.buf.getD i 0 = 9))
    (hnc : st.buf.getD i 0 ≠ d.comment.toNat) :
    ∀ fuel n, 1 ≤ n → n ≤ i + 1 → i + 2 - n ≤ fuel →
      skipCommentsF d fuel n false st = (none, st) := by
  intro fuel
  induction fuel with
  | zero =>
    intro n _ hn2 hfuel
    omega
  | succ fuel ih =>
    intro n hn1 hn2 hfuel
    have hpeek : st.peek n = (st.buf.take n, none) := by
      simp [RState.peek, (by omega : n ≤ st.buf.length)]
    have hp1 : (st.peek n).1 = st.buf.take n := by rw [hpeek]
    have hp2 : (st.peek n).2 = none := by rw [hpeek]
    have hgd : (st.peek n).1.getD (n - 1) 0 = st.buf.getD (n - 1) 0 := by
      rw [hp1, getD_take_lt (by omega)]
    simp only [skipCommentsF, hp2, hgd]
    by_cases hcase : n - 1 < i
    · have hwsb := hws (n - 1) hcase
      rw [if_pos hwsb]
      rw [if_neg (by simp)]
      exact ih (n + 1) (by omega) (by omega) (by omega)
    · have hni : n - 1 = i := by omega
      rw [hni]
      rw [if_neg hnw, if_neg hnc]
      rw [if_pos (by simp)]

theorem skipComments_noop (d : Dialect) (st : RState) (h : NonCommentStart d st.buf) :
    skipComments d st = (none, st) := by
  obtain ⟨i, hi, hws, hnw, hnc⟩ := h
  exact skipCommentsF_noop d st i hi hws hnw hnc (2 * st.buf.length + 2) 1
    (by omega) (by omega) (by omega)

theorem writeRecord_join (d : Dialect) (r : List (List Char)) :
    writeRecord d (r.map strBytes) = joinFields d r ++ d.lineTerminator := by
  cases r with
  | nil => simp [writeRecord, joinFields]
  | cons f t =>
    simp [writeRecord, joinFields, List.map_map]
    rfl

theorem joinFields_cons2 (d : Dialect) (f g : List Char) (t : List (List Char)) :
    joinFields d (f :: g :: t)
      = writeField d (strBytes f) ++ (utf8EncodeChar d.delimiter ++ joinFields d (g :: t)) := by
  simp [joinFields, List.append_assoc]

end GoCsv

namespace GoCsv

theorem readLoopF_record (d : Dialect) (hd : GoodDialect d) (rest : Bytes) (e : GoErr) :
    ∀ (r : List (List Char)), r ≠ [] → (∀ f ∈ r, SafeField d f) →
      ∀ (fuel : Nat) (acc : List Bytes),
        (joinFields d r ++ (d.lineTerminator ++ rest)).length + 1 ≤ fuel →
        readLoopF d fuel acc ⟨joinFields d r ++ (d.lineTerminator ++ rest), e⟩ =
          ((acc ++ r.map strBytes, none), ⟨rest, e⟩) := by
  intro r
  induction r with
  | nil => intro h; exact absurd rfl h
  | cons f t ih =>
    intro _ hsafe fuel acc hfuel
    have hqdelim : utf8EncodeChar d.delimiter = [d.delimiter.toNat] := by
      simp [utf8EncodeChar, hd.delim_ascii]
    cases t with
    | nil =>
      have hjf : joinFields d [f] = writeField d (strBytes f) := by
        simp [joinFields]
      rw [hjf] at hfuel ⊢
      cases fuel with
      | zero => omega
      | succ fuel =>
        have hrf := readField_run d hd f (hsafe f (by simp)) (d.lineTerminator ++ rest) e
          (Or.inr ⟨rest, rfl⟩) (by simp only [List.length_append]; omega)
        have hrf11 : (readField d ⟨writeField d (strBytes f) ++ (d.lineTerminator ++ rest), e⟩).1.1
            = strBytes f := by rw [hrf]
        have hrf12 : (readField d ⟨writeField d (strBytes f) ++ (d.lineTerminator ++ rest), e⟩).1.2
            = none := by rw [hrf]
        have hrf2 : (readField d ⟨writeField d (strBytes f) ++ (d.lineTerminator ++ rest), e⟩).2
            = ⟨d.lineTerminator ++ rest, e⟩ := by rw [hrf]
        have hlt1 : (nextIsBytes ⟨d.lineTerminator ++ rest, e⟩ d.lineTerminator).1 = true := by
          rw [nextIsBytes_found]
        have hsk : RState.discard ⟨d.lineTerminator ++ rest, e⟩ d.lineTerminator.length
            = (⟨rest, e⟩, none) := discard_exact _ _ _
        have hsk1 : (RState.discard ⟨d.lineTerminator ++ rest, e⟩ d.lineTerminator.length).1
            = ⟨rest, e⟩ := by rw [hsk]
        have hsk2 : (RState.discard ⟨d.lineTerminator ++ rest, e⟩ d.lineTerminator.length).2
            = none := by rw [hsk]
        simp only [readLoopF, hrf11, hrf12, hrf2, hlt1, if_true, hsk1, hsk2]
        simp
    | cons g t2 =>
      have hencδlen : (utf8EncodeChar d.delimiter).length = 1 := by rw [hqdelim]; rfl
      rw [joinFields_cons2, List.append_assoc, List.append_assoc] at hfuel ⊢
      cases fuel with
      | zero =>
        simp only [List.length_append] at hfuel
        omega
      | succ fuel =>
        set X := joinFields d (g :: t2) ++ (d.lineTerminator ++ rest) with hX
        have hrf := readField_run d hd f (hsafe f (by simp)) (utf8EncodeChar d.delimiter ++ X) e
          (Or.inl ⟨X, rfl⟩)
          (by simp only [hX, List.length_append]; omega)
        have hrf11 : (readField d ⟨writeField d (strBytes f)
            ++ (utf8EncodeChar d.delimiter ++ X), e⟩).1.1 = strBytes f := by rw [hrf]
        have hrf12 : (readField d ⟨writeField d (strBytes f)
            ++ (utf8EncodeChar d.delimiter ++ X), e⟩).1.2 = none := by rw [hrf]
        have hrf2 : (readField d ⟨writeField d (strBytes f)
            ++ (utf8EncodeChar d.delimiter ++ X), e⟩).2
            = ⟨utf8EncodeChar d.delimiter ++ X, e⟩ := by rw [hrf]
        have hltm : nextIsBytes ⟨utf8EncodeChar d.delimiter ++ X, e⟩ d.lineTerminator
            = (false, none) := by
          apply nextIsBytes_miss
          · simp only [hX, List.length_append]
            omega
          · rw [hqdelim, List.cons_append]
            exact take_ne_of_head_notmem hd.lt_ne_nil
              (fun hmem => (hd.lt_byte_good _ hmem).2.1 rfl)
        have hlt1 : (nextIsBytes ⟨utf8EncodeChar d.delimiter ++ X, e⟩ d.lineTerminator).1
            = false := by rw [hltm]
        have hdel1 : (nextIsBytes ⟨utf8EncodeChar d.delimiter ++ X, e⟩
            (utf8EncodeChar d.delimiter)).1 = true := by rw [nextIsBytes_found]
        have hsk1 : (RState.discard ⟨utf8EncodeChar d.delimiter ++ X, e⟩
            (utf8EncodeChar d.delimiter).length).1 = ⟨X, e⟩ := by rw [discard_exact]
        simp only [readLoopF, hrf11, hrf12, hrf2, hlt1, hdel1, if_true, hsk1]
        rw [if_neg (by simp)]
        rw [ih (by simp) (fun f2 h2 => hsafe f2 (by simp [h2])) fuel (acc ++ [strBytes f])
          (by simp only [hX, List.length_append] at *; omega)]
        simp

end GoCsv

namespace GoCsv

theorem toNat_ne_of_ne {c c' : Char} (h : c ≠ c') : c.toNat ≠ c'.toNat :=
  fun hc => h (charToNat_inj hc)

theorem getD_append_lt (l₁ l₂ : Bytes) (j : Nat) (h : j < l₁.length) :
    (l₁ ++ l₂).getD j 0 = l₁.getD j 0 := List.getD_append l₁ l₂ 0 j h

theorem mem_of_getD {l : Bytes} {j : Nat} (h : j < l.length) : l.getD j 0 ∈ l := by
  rw [List.getD_eq_getElem?_getD, List.getElem?_eq_getElem h]
  exact List.getElem_mem h

theorem ws_strBytes {w : List Char} (hw : ∀ c ∈ w, wsB c = true) :
    ∀ b ∈ strBytes w, b = 32 ∨ b = 9 := by
  intro b hb
  simp only [strBytes, List.mem_flatten, List.mem_map] at hb
  obtain ⟨bl, ⟨c, hc, rfl⟩, hbl⟩ := hb
  have hwc := hw c hc
  simp only [wsB, Bool.or_eq_true, decide_eq_true_eq] at hwc
  rcases hwc with rfl | rfl
  · left
    simpa [utf8EncodeChar] using hbl
  · right
    simpa [utf8EncodeChar] using hbl

theorem enc_head_nonascii (c : Char) (h : ¬ c.toNat < 0x80) :
    ∃ l, utf8EncodeChar c = ((utf8EncodeChar c).getD 0 0) :: l ∧
      0xC2 ≤ (utf8EncodeChar c).getD 0 0 := by
  have hv := char_valid_nat c
  by_cases h2 : c.toNat < 0x800
  · have henc : utf8EncodeChar c = [0xC0 + c.toNat / 64, 0x80 + c.toNat % 64] := by
      simp [utf8EncodeChar, h, h2]
    rw [henc]
    exact ⟨_, rfl, by simp [List.getD]; omega⟩
  · by_cases h3 : c.toNat < 0x10000
    · have henc : utf8EncodeChar c =
          [0xE0 + c.toNat / 4096, 0x80 + c.toNat / 64 % 64, 0x80 + c.toNat % 64] := by
        simp [utf8EncodeChar, h, h2, h3]
      rw [henc]
      exact ⟨_, rfl, by simp [List.getD]; omega⟩
    · have henc : utf8EncodeChar c = [0xF0 + c.toNat / 262144, 0x80 + c.toNat / 4096 % 64,
          0x80 + c.toNat / 64 % 64, 0x80 + c.toNat % 64] := by
        simp [utf8EncodeChar, h, h2, h3]
      rw [henc]
      exact ⟨_, rfl, by simp [List.getD]; omega⟩

/-- A byte that is neither whitespace nor the comment byte yields
`NonCommentStart` at index `i` when everything before `i` is whitespace. -/
theorem nonCommentStart_of (d : Dialect) (bs : Bytes) (i : Nat) (hi : i < bs.length)
    (hws : ∀ j, j < i → bs.getD j 0 = 32 ∨ bs.getD j 0 = 9)
    (hnw : ¬(bs.getD i 0 = 32 ∨ bs.getD i 0 = 9)) (hnc : bs.getD i 0 ≠ d.comment.toNat) :
    NonCommentStart d bs := ⟨i, hi, hws, hnw, hnc⟩

theorem dropWhile_head_not {α : Type} (p : α → Bool) :
    ∀ (l : List α) (c : α) (cs : List α), l.dropWhile p = c :: cs → p c = false := by
  intro l
  induction l with
  | nil =>
    intro c cs h
    simp [List.dropWhile] at h
  | cons a l ih =>
    intro c cs h
    rw [List.dropWhile_cons] at h
    cases hpa : p a
    · rw [hpa] at h
      simp only [Bool.false_eq_true, if_false] at h
      injection h with h1 h2
      rw [← h1]
      exact hpa
    · rw [hpa] at h
      simp only [if_true] at h
      exact ih c cs h

/-- A whitespace prefix followed by a good byte gives `NonCommentStart`. -/
theorem nonCommentStart_ws_append (d : Dialect) (w : List Char)
    (hw : ∀ c ∈ w, wsB c = true) (X : Bytes) (hX : 0 < X.length)
    (hnw : ¬(X.getD 0 0 = 32 ∨ X.getD 0 0 = 9)) (hnc : X.getD 0 0 ≠ d.comment.toNat) :
    NonCommentStart d (strBytes w ++ X) := by
  refine nonCommentStart_of d _ (strBytes w).length ?_ ?_ ?_ ?_
  · rw [List.length_append]
    omega
  · intro j hj
    rw [getD_append_lt _ _ j hj]
    exact ws_strBytes hw _ (mem_of_getD hj)
  · rw [List.getD_append_right _ _ _ _ le_rfl, Nat.sub_self]
    exact hnw
  · rw [List.getD_append_right _ _ _ _ le_rfl, Nat.sub_self]
    exact hnc

theorem record_nonCommentStart (d : Dialect) (hd : GoodDialect d) (f : List Char)
    (t : List (List Char)) (hr : SafeRecord d (f :: t)) (rest : Bytes) :
    NonCommentStart d (joinFields d (f :: t) ++ (d.lineTerminator ++ rest)) := by
  have hqq : utf8EncodeChar d.quoteChar = [d.quoteChar.toNat] := by
    simp [utf8EncodeChar, hd.quote_ascii]
  have hqdelim : utf8EncodeChar d.delimiter = [d.delimiter.toNat] := by
    simp [utf8EncodeChar, hd.delim_ascii]
  by_cases hq : fieldNeedsQuote d (strBytes f) = true
  · -- first field quoted: the stream begins with the quote byte
    have hwf : ∃ R, writeField d (strBytes f) = d.quoteChar.toNat :: R := by
      rw [writeField, if_pos hq, writeQuoted_map, hqq]
      exact ⟨_, rfl⟩
    obtain ⟨R, hR⟩ := hwf
    have hjoin : joinFields d (f :: t) = writeField d (strBytes f)
        ++ (t.map fun g => utf8EncodeChar d.delimiter ++ writeField d (strBytes g)).flatten :=
      rfl
    rw [hjoin, hR, List.cons_append, List.cons_append]
    refine nonCommentStart_of d _ 0 (by simp) (by omega) ?_ ?_
    · have h32 : d.quoteChar.toNat ≠ 32 := by
        intro hc
        exact hd.quote_not_ws.1 (charToNat_inj2 _ ' ' hc)
      have h9 : d.quoteChar.toNat ≠ 9 := by
        intro hc
        exact hd.quote_not_ws.2 (charToNat_inj2 _ '\t' hc)
      simp only [List.getD]
      simp [h32, h9]
    · have := toNat_ne_of_ne (Ne.symm hd.comment_ne_quote)
      simp only [List.getD]
      simpa using this
  · -- first field unquoted: whitespace prefix, then a good byte
    have hqf : fieldNeedsQuote d (strBytes f) = false := by
      simpa using hq
    have hcomm : (f.dropWhile wsB).head? ≠ some d.comment := hr.2.2 f rfl hqf
    obtain ⟨w, rc, hsplit, hwmem, hhd⟩ :
        ∃ w rc, f = w ++ rc ∧ (∀ c ∈ w, wsB c = true) ∧ f.dropWhile wsB = rc :=
      ⟨f.takeWhile wsB, f.dropWhile wsB, (List.takeWhile_append_dropWhile wsB f).symm,
        fun c hc => List.mem_takeWhile_imp hc, rfl⟩
    subst hsplit
    rw [hhd] at hcomm
    have hwf : writeField d (strBytes (w ++ rc)) = strBytes (w ++ rc) := by
      rw [writeField, if_neg]
      simp [hqf]
    have hS : joinFields d ((w ++ rc) :: t) ++ (d.lineTerminator ++ rest)
        = strBytes w ++ (strBytes rc
            ++ ((t.map fun g => utf8EncodeChar d.delimiter
                  ++ writeField d (strBytes g)).flatten
              ++ (d.lineTerminator ++ rest))) := by
      have h0 : joinFields d ((w ++ rc) :: t)
          = writeField d (strBytes (w ++ rc))
            ++ (t.map fun g => utf8EncodeChar d.delimiter
                  ++ writeField d (strBytes g)).flatten := rfl
      rw [h0, hwf, strBytes_append]
      simp [List.append_assoc]
    rw [hS]
    cases rc with
    | cons c rc2 =>
      have hcf : wsB c = false := dropWhile_head_not wsB (w ++ c :: rc2) c rc2 hhd
      simp only [wsB, Bool.or_eq_false_iff, decide_eq_false_iff_not] at hcf
      have hcc : c ≠ d.comment := fun hcd => hcomm (by simp [hcd])
      have hrc : strBytes (c :: rc2) = utf8EncodeChar c ++ strBytes rc2 := rfl
      rw [hrc, List.append_assoc]
      refine nonCommentStart_ws_append d w hwmem _ ?_ ?_ ?_
      · have := utf8EncodeChar_length_pos c
        rw [List.length_append]
        omega
      · rw [getD_append_lt _ _ 0 (utf8EncodeChar_length_pos c)]
        by_cases hasc : c.toNat < 0x80
        · have henc : utf8EncodeChar c = [c.toNat] := by
            simp [utf8EncodeChar, hasc]
          rw [henc]
          simp only [List.getD]
          intro hcon
          rcases hcon with h32 | h9
          · exact hcf.1 (charToNat_inj2 _ ' ' (by simpa using h32))
          · exact hcf.2 (charToNat_inj2 _ '\x09' (by simpa using h9))
        · obtain ⟨l, hl, hge⟩ := enc_head_nonascii c hasc
          omega
      · rw [getD_append_lt _ _ 0 (utf8EncodeChar_length_pos c)]
        by_cases hasc : c.toNat < 0x80
        · have henc : utf8EncodeChar c = [c.toNat] := by
            simp [utf8EncodeChar, hasc]
          rw [henc]
          simp only [List.getD]
          simpa using toNat_ne_of_ne hcc
        · obtain ⟨l, hl, hge⟩ := enc_head_nonascii c hasc
          have := hd.comment_ascii
          omega
    | nil =>
      have hnil : strBytes ([] : List Char) = [] := rfl
      rw [hnil, List.nil_append]
      cases t with
      | nil =>
        simp only [List.map_nil, List.flatten_nil, List.nil_append]
        cases hlt : d.lineTerminator with
        | nil => exact absurd hlt hd.lt_ne_nil
        | cons b lb =>
          have hb := hd.lt_byte_good b (by rw [hlt]; exact List.mem_cons_self b lb)
          rw [List.cons_append]
          refine nonCommentStart_ws_append d w hwmem _ (by simp) ?_ ?_
          · have h32 : b ≠ 32 := hb.2.2.2.2.1
            have h9 : b ≠ 9 := hb.2.2.2.2.2
            simp only [List.getD]
            simp [h32, h9]
          · simp only [List.getD]
            simpa using hb.2.2.2.1
      | cons g t2 =>
        have hflat : ((g :: t2).map fun g => utf8EncodeChar d.delimiter
              ++ writeField d (strBytes g)).flatten
            = utf8EncodeChar d.delimiter ++ (writeField d (strBytes g)
              ++ ((t2.map fun g => utf8EncodeChar d.delimiter
                    ++ writeField d (strBytes g)).flatten)) := by
          simp [List.append_assoc]
        rw [hflat, hqdelim, List.append_assoc, List.cons_append, List.nil_append]
        refine nonCommentStart_ws_append d w hwmem _ (by simp) ?_ ?_
        · have h32 : d.delimiter.toNat ≠ 32 :=
            fun h => hd.delim_not_ws.1 (charToNat_inj2 _ ' ' h)
          have h9 : d.delimiter.toNat ≠ 9 :=
            fun h => hd.delim_not_ws.2 (charToNat_inj2 _ '\x09' h)
          simp only [List.getD]
          simp [h32, h9]
        · simp only [List.getD]
          simpa using toNat_ne_of_ne (Ne.symm hd.comment_ne_delim)

end GoCsv

namespace GoCsv

theorem readRecord_run (d : Dialect) (hd : GoodDialect d) (r : List (List Char))
    (hr : SafeRecord d r) (rest : Bytes) (e : GoErr) :
    readRecord d ⟨writeRecord d (r.map strBytes) ++ rest, e⟩ =
      ((r.map strBytes, none), ⟨rest, e⟩) := by
  have hne := hr.1
  have hsafe := hr.2.1
  cases r with
  | nil => exact absurd rfl hne
  | cons f t =>
    have hnc : NonCommentStart d (joinFields d (f :: t) ++ (d.lineTerminator ++ rest)) :=
      record_nonCommentStart d hd f t hr rest
    have hbuf : writeRecord d ((f :: t).map strBytes) ++ rest
        = joinFields d (f :: t) ++ (d.lineTerminator ++ rest) := by
      rw [writeRecord_join, List.append_assoc]
    rw [hbuf]
    have hsc : skipComments d ⟨joinFields d (f :: t) ++ (d.lineTerminator ++ rest), e⟩
        = (none, ⟨joinFields d (f :: t) ++ (d.lineTerminator ++ rest), e⟩) :=
      skipComments_noop d _ hnc
    have hsc1 : (skipComments d ⟨joinFields d (f :: t) ++ (d.lineTerminator ++ rest), e⟩).1
        = none := by rw [hsc]
    have hsc2 : (skipComments d ⟨joinFields d (f :: t) ++ (d.lineTerminator ++ rest), e⟩).2
        = ⟨joinFields d (f :: t) ++ (d.lineTerminator ++ rest), e⟩ := by rw [hsc]
    simp only [readRecord, hsc1, hsc2]
    have hrun := readLoopF_record d hd rest e (f :: t) (by simp) hsafe
      ((joinFields d (f :: t) ++ (d.lineTerminator ++ rest)).length + 1) [] le_rfl
    simpa using hrun

end GoCsv

namespace GoCsv

theorem readRecord_empty (d : Dialect) (e : GoErr) :
    readRecord d ⟨[], e⟩ = (([], some e), ⟨[], e⟩) := by
  simp [readRecord, skipComments, skipCommentsF, RState.peek]

theorem writeRecord_length_pos (d : Dialect) (hlt : d.lineTerminator ≠ []) (r : List (List Char)) :
    0 < (writeRecord d (r.map strBytes)).length := by
  rw [writeRecord_join, List.length_append]
  have : 0 < d.lineTerminator.length := List.length_pos.mpr hlt
  omega

theorem readAllF_roundtrip (d : Dialect) (hd : GoodDialect d) :
    ∀ (rs : List (List (List Char))), (∀ r ∈ rs, SafeRecord d r) →
      ∀ (fuel : Nat) (rows : List (List Bytes)),
        (writeAll d (rs.map (fun r => r.map strBytes))).length + 1 ≤ fuel →
        readAllF d fuel rows ⟨writeAll d (rs.map (fun r => r.map strBytes)), .eof⟩ =
          ((rows ++ rs.map (fun r => r.map strBytes), none), ⟨[], .eof⟩) := by
  intro rs
  induction rs with
  | nil =>
    intro _ fuel rows hfuel
    cases fuel with
    | zero => simp [writeAll] at hfuel
    | succ fuel =>
      have hrr := readRecord_empty d .eof
      have h12 : (readRecord d ⟨[], .eof⟩).1.2 = some .eof := by rw [hrr]
      have h2 : (readRecord d ⟨[], .eof⟩).2 = ⟨[], .eof⟩ := by rw [hrr]
      simp only [List.map_nil]
      have hempty : writeAll d ([] : List (List Bytes)) = [] := rfl
      rw [hempty]
      simp only [readAllF, h12, h2]
      simp
  | cons r rs ih =>
    intro hsr fuel rows hfuel
    have hsplit : writeAll d ((r :: rs).map (fun r => r.map strBytes))
        = writeRecord d (r.map strBytes)
          ++ writeAll d (rs.map (fun r => r.map strBytes)) := by
      simp [writeAll]
    cases fuel with
    | zero => omega
    | succ fuel =>
      rw [hsplit] at hfuel ⊢
      have hrr := readRecord_run d hd r (hsr r (List.mem_cons_self r rs))
        (writeAll d (rs.map (fun r => r.map strBytes))) .eof
      have h12 : (readRecord d ⟨writeRecord d (r.map strBytes)
          ++ writeAll d (rs.map (fun r => r.map strBytes)), .eof⟩).1.2 = none := by
        rw [hrr]
      have h11 : (readRecord d ⟨writeRecord d (r.map strBytes)
          ++ writeAll d (rs.map (fun r => r.map strBytes)), .eof⟩).1.1
            = r.map strBytes := by
        rw [hrr]
      have h2 : (readRecord d ⟨writeRecord d (r.map strBytes)
          ++ writeAll d (rs.map (fun r => r.map strBytes)), .eof⟩).2
            = ⟨writeAll d (rs.map (fun r => r.map strBytes)), .eof⟩ := by
        rw [hrr]
      simp only [readAllF, h12, h11, h2]
      have hlen : 0 < (writeRecord d (r.map strBytes)).length :=
        writeRecord_length_pos d hd.lt_ne_nil _
      have hih := ih (fun g hg => hsr g (List.mem_cons_of_mem r hg)) fuel
        (rows ++ [r.map strBytes])
        (by rw [List.length_append] at hfuel; omega)
      rw [hih]
      simp

end GoCsv

namespace GoCsv

theorem readField_eof (d : Dialect) (hd : GoodDialect d)
    (hlt1 : d.lineTerminator.length = 1) (F : List Char)
    (hδ : d.delimiter ∉ F) (hnc : containsStr (strBytes F) d.lineTerminator = false)
    (hq : F.head? ≠ some d.quoteChar) (e : GoErr) :
    readField d ⟨strBytes F, e⟩ = ((strBytes F, some e), ⟨[], e⟩) := by
  cases F with
  | nil =>
    have hlen : 0 < d.lineTerminator.length := List.length_pos.mpr hd.lt_ne_nil
    have hshort : nextIsBytes ⟨strBytes ([] : List Char), e⟩ d.lineTerminator
        = (false, some e) := nextIsBytes_short (by simpa [strBytes] using hlen)
    have h1 : (nextIsBytes ⟨strBytes ([] : List Char), e⟩ d.lineTerminator).1 = false := by
      rw [hshort]
    have h2 : (nextIsBytes ⟨strBytes ([] : List Char), e⟩ d.lineTerminator).2 = some e := by
      rw [hshort]
    simp only [readField, h1, h2]
    simp [strBytes]
  | cons c F2 =>
    have hlen1 : 1 ≤ (strBytes (c :: F2)).length := by
      have := utf8EncodeChar_length_pos c
      simp only [strBytes, List.map_cons, List.flatten_cons, List.length_append]
      omega
    have hmiss : nextIsBytes ⟨strBytes (c :: F2), e⟩ d.lineTerminator = (false, none) :=
      nextIsBytes_miss (by omega) (take_ne_lt_eof _ List.suffix_rfl hnc)
    have h1 : (nextIsBytes ⟨strBytes (c :: F2), e⟩ d.lineTerminator).1 = false := by
      rw [hmiss]
    have h2 : (nextIsBytes ⟨strBytes (c :: F2), e⟩ d.lineTerminator).2 = none := by
      rw [hmiss]
    have hsb : strBytes (c :: F2) = utf8EncodeChar c ++ strBytes F2 := rfl
    have hpr : RState.peekRune ⟨strBytes (c :: F2), e⟩ = (c, none) := by
      rw [RState.peekRune, hsb, readRune_encode]
    have hpr1 : (RState.peekRune ⟨strBytes (c :: F2), e⟩).1 = c := by rw [hpr]
    have hpr2 : (RState.peekRune ⟨strBytes (c :: F2), e⟩).2 = none := by rw [hpr]
    have hcq : ¬ (c = d.quoteChar) := fun h => hq (by rw [h]; rfl)
    simp only [readField, h1, h2]
    rw [if_neg (by simp)]
    simp only [hpr2, hpr1]
    rw [if_neg hcq]
    rw [readUnquotedField]
    have := readUnquotedLoopF_eof d hd (c :: F2) hδ hnc e (c :: F2) List.suffix_rfl
      ((RState.buf ⟨strBytes (c :: F2), e⟩).length + 1) [] le_rfl
    simpa using this

end GoCsv

namespace GoCsv

theorem readField_delim_raw (d : Dialect) (hd : GoodDialect d)
    (hlt1 : d.lineTerminator.length = 1) (F : List Char)
    (hδ : d.delimiter ∉ F) (hnc : containsStr (strBytes F) d.lineTerminator = false)
    (hq : F.head? ≠ some d.quoteChar) (mid : Bytes) (e : GoErr) :
    readField d ⟨strBytes F ++ (utf8EncodeChar d.delimiter ++ mid), e⟩ =
      ((strBytes F, none), ⟨utf8EncodeChar d.delimiter ++ mid, e⟩) := by
  have hqdelim : utf8EncodeChar d.delimiter = [d.delimiter.toNat] := by
    simp [utf8EncodeChar, hd.delim_ascii]
  have hdlen : (utf8EncodeChar d.delimiter).length = 1 := by rw [hqdelim]; rfl
  have hlen1 : 1 ≤ (strBytes F ++ (utf8EncodeChar d.delimiter ++ mid)).length := by
    simp only [List.length_append]
    omega
  have hmiss : nextIsBytes ⟨strBytes F ++ (utf8EncodeChar d.delimiter ++ mid), e⟩
      d.lineTerminator = (false, none) :=
    nextIsBytes_miss (by omega) (take_ne_lt_delim hd _ mid List.suffix_rfl hnc)
  have h1 : (nextIsBytes ⟨strBytes F ++ (utf8EncodeChar d.delimiter ++ mid), e⟩
      d.lineTerminator).1 = false := by rw [hmiss]
  have h2 : (nextIsBytes ⟨strBytes F ++ (utf8EncodeChar d.delimiter ++ mid), e⟩
      d.lineTerminator).2 = none := by rw [hmiss]
  cases F with
  | nil =>
    have hb0 : strBytes ([] : List Char) ++ (utf8EncodeChar d.delimiter ++ mid)
        = utf8EncodeChar d.delimiter ++ mid := by simp [strBytes]
    rw [hb0] at h1 h2 ⊢
    have hpr : RState.peekRune ⟨utf8EncodeChar d.delimiter ++ mid, e⟩ = (d.delimiter, none) := by
      rw [RState.peekRune, readRune_encode]
    have hpr1 : (RState.peekRune ⟨utf8EncodeChar d.delimiter ++ mid, e⟩).1 = d.delimiter := by
      rw [hpr]
    have hpr2 : (RState.peekRune ⟨utf8EncodeChar d.delimiter ++ mid, e⟩).2 = none := by
      rw [hpr]
    simp only [readField, h1, h2]
    rw [if_neg (by simp)]
    simp only [hpr2, hpr1]
    rw [if_neg (by simpa using hd.delim_ne_quote)]
    rw [readUnquotedField]
    have := readUnquotedLoopF_delim d hd [] (by simp) hnc
      mid e [] List.suffix_rfl
      ((RState.buf ⟨utf8EncodeChar d.delimiter ++ mid, e⟩).length + 1) []
      (by simp [strBytes])
    simpa [strBytes] using this
  | cons c F2 =>
    have hsb : strBytes (c :: F2) = utf8EncodeChar c ++ strBytes F2 := rfl
    have hpr : RState.peekRune ⟨strBytes (c :: F2) ++ (utf8EncodeChar d.delimiter ++ mid), e⟩
        = (c, none) := by
      rw [RState.peekRune, hsb, List.append_assoc, readRune_encode]
    have hpr1 : (RState.peekRune ⟨strBytes (c :: F2)
        ++ (utf8EncodeChar d.delimiter ++ mid), e⟩).1 = c := by rw [hpr]
    have hpr2 : (RState.peekRune ⟨strBytes (c :: F2)
        ++ (utf8EncodeChar d.delimiter ++ mid), e⟩).2 = none := by rw [hpr]
    have hcq : ¬ (c = d.quoteChar) := fun h => hq (by rw [h]; rfl)
    simp only [readField, h1, h2]
    rw [if_neg (by simp)]
    simp only [hpr2, hpr1]
    rw [if_neg hcq]
    rw [readUnquotedField]
    have := readUnquotedLoopF_delim d hd (c :: F2) hδ hnc mid e (c :: F2) List.suffix_rfl
      ((RState.buf ⟨strBytes (c :: F2) ++ (utf8EncodeChar d.delimiter ++ mid), e⟩).length + 1)
      [] (by simp only [RState.buf, List.length_append]; omega)
    simpa using this

end GoCsv

namespace GoCsv

theorem readLoopF_eofrec (d : Dialect) (hd : GoodDialect d)
    (hlt1 : d.lineTerminator.length = 1) (e : GoErr) :
    ∀ (fields : List (List Char)), fields ≠ [] →
      (∀ f ∈ fields, d.delimiter ∉ f ∧ containsStr (strBytes f) d.lineTerminator = false ∧
        f.head? ≠ some d.quoteChar) →
      ∀ (fuel : Nat) (acc : List Bytes),
        (unquotedJoin d fields).length + 1 ≤ fuel →
        readLoopF d fuel acc ⟨unquotedJoin d fields, e⟩ =
          ((acc ++ fields.map strBytes, some e), ⟨[], e⟩) := by
  intro fields
  induction fields with
  | nil => intro h; exact absurd rfl h
  | cons f t ih =>
    intro _ hcond fuel acc hfuel
    have hqdelim : utf8EncodeChar d.delimiter = [d.delimiter.toNat] := by
      simp [utf8EncodeChar, hd.delim_ascii]
    have hdlen : (utf8EncodeChar d.delimiter).length = 1 := by rw [hqdelim]; rfl
    obtain ⟨hδ, hnc, hq⟩ := hcond f (by simp)
    cases t with
    | nil =>
      have hjf : unquotedJoin d [f] = strBytes f := rfl
      rw [hjf] at hfuel ⊢
      cases fuel with
      | zero => omega
      | succ fuel =>
        have hrf := readField_eof d hd hlt1 f hδ hnc hq e
        have h11 : (readField d ⟨strBytes f, e⟩).1.1 = strBytes f := by rw [hrf]
        have h12 : (readField d ⟨strBytes f, e⟩).1.2 = some e := by rw [hrf]
        have h2 : (readField d ⟨strBytes f, e⟩).2 = ⟨[], e⟩ := by rw [hrf]
        simp only [readLoopF, h11, h12, h2]
        simp
    | cons g t2 =>
      have hjf : unquotedJoin d (f :: g :: t2)
          = strBytes f ++ (utf8EncodeChar d.delimiter ++ unquotedJoin d (g :: t2)) := rfl
      rw [hjf] at hfuel ⊢
      cases fuel with
      | zero =>
        simp only [List.length_append] at hfuel
        omega
      | succ fuel =>
        set X := unquotedJoin d (g :: t2) with hX
        have hrf := readField_delim_raw d hd hlt1 f hδ hnc hq X e
        have h11 : (readField d ⟨strBytes f ++ (utf8EncodeChar d.delimiter ++ X), e⟩).1.1
            = strBytes f := by rw [hrf]
        have h12 : (readField d ⟨strBytes f ++ (utf8EncodeChar d.delimiter ++ X), e⟩).1.2
            = none := by rw [hrf]
        have h2 : (readField d ⟨strBytes f ++ (utf8EncodeChar d.delimiter ++ X), e⟩).2
            = ⟨utf8EncodeChar d.delimiter ++ X, e⟩ := by rw [hrf]
        have hltm : nextIsBytes ⟨utf8EncodeChar d.delimiter ++ X, e⟩ d.lineTerminator
            = (false, none) := by
          apply nextIsBytes_miss
          · simp only [List.length_append]
            omega
          · rw [hqdelim, List.cons_append]
            exact take_ne_of_head_notmem hd.lt_ne_nil
              (fun hmem => (hd.lt_byte_good _ hmem).2.1 rfl)
        have hlt1' : (nextIsBytes ⟨utf8EncodeChar d.delimiter ++ X, e⟩ d.lineTerminator).1
            = false := by rw [hltm]
        have hdel1 : (nextIsBytes ⟨utf8EncodeChar d.delimiter ++ X, e⟩
            (utf8EncodeChar d.delimiter)).1 = true := by rw [nextIsBytes_found]
        have hsk1 : (RState.discard ⟨utf8EncodeChar d.delimiter ++ X, e⟩
            (utf8EncodeChar d.delimiter).length).1 = ⟨X, e⟩ := by rw [discard_exact]
        simp only [readLoopF, h11, h12, h2, hlt1', hdel1, if_true, hsk1]
        rw [if_neg (by simp)]
        rw [ih (by simp) (fun f2 h2 => hcond f2 (by simp [h2])) fuel (acc ++ [strBytes f])
          (by simp only [List.length_append] at hfuel; omega)]
        simp

theorem readRecord_eof_run (d : Dialect) (hd : GoodDialect d)
    (hlt1 : d.lineTerminator.length = 1) (fields : List (List Char)) (hne : fields ≠ [])
    (hcond : ∀ f ∈ fields, d.delimiter ∉ f ∧
      containsStr (strBytes f) d.lineTerminator = false ∧ f.head? ≠ some d.quoteChar)
    (hncs : NonCommentStart d (unquotedJoin d fields)) (e : GoErr) :
    readRecord d ⟨unquotedJoin d fields, e⟩ = ((fields.map strBytes, some e), ⟨[], e⟩) := by
  have hsc : skipComments d ⟨unquotedJoin d fields, e⟩
      = (none, ⟨unquotedJoin d fields, e⟩) := skipComments_noop d _ hncs
  have hsc1 : (skipComments d ⟨unquotedJoin d fields, e⟩).1 = none := by rw [hsc]
  have hsc2 : (skipComments d ⟨unquotedJoin d fields, e⟩).2
      = ⟨unquotedJoin d fields, e⟩ := by rw [hsc]
  simp only [readRecord, hsc1, hsc2]
  have := readLoopF_eofrec d hd hlt1 e fields hne hcond
    ((RState.buf ⟨unquotedJoin d fields, e⟩).length + 1) [] le_rfl
  simpa using this

end GoCsv

namespace GoCsv

/-- The resolved default dialect satisfies all the round-trip hypotheses. -/
theorem goodDialect_default : GoodDialect zeroDialect.setDefaults :=
  ⟨by decide, by decide, by decide, by decide, by decide, by decide, by decide, by decide,
   by decide, by decide, by decide, by decide, by decide,
   fun k hk1 hk2 => by
     have h1 : zeroDialect.setDefaults.lineTerminator.length = 1 := by decide
     rw [h1] at hk2
     exact absurd hk1 (by omega),
   by decide, by decide⟩

end GoCsv

namespace GoCsv

/-! ## The encode/decode round trip (C1) and EOF mid-record (C8) -/

/-- C1, counterexample: the round trip fails for a dialect with pairwise
distinct special characters when the quoting mode is `QuoteNone` — the
field `"a,b"` is written verbatim, and reading splits it at the
delimiter, yielding the two fields `"a"` and `"b"`. -/
theorem roundtrip_quoteNone_counterexample :
    dialectWriteAll { zeroDialect with quoting := .quoteNone } [[gostr "a,b"]]
        = gostr "a,b\n" ∧
      dialectReadAll { zeroDialect with quoting := .quoteNone } ⟨gostr "a,b\n", .eof⟩ =
        (([[gostr "a", gostr "b"]], none), ⟨[], .eof⟩) ∧
      ([[gostr "a", gostr "b"]] : List (List Bytes)) ≠ [[gostr "a,b"]] :=
  ⟨by decide, by decide, by decide⟩

/-- C1 (amended): for a dialect that resolves to ASCII, pairwise distinct,
non-whitespace special characters, an aperiodic line terminator disjoint
from them, a recognized double-quote mode and a quoting mode other than
`QuoteNone`, and for every sequence of safe records (non-empty records of
fields without the escape character, whose unquoted fields contain no
delimiter, no line terminator and no leading quote, and whose first field
does not start a comment), `Reader.ReadAll` applied to the output of
`Writer.WriteAll` under the same dialect returns exactly the original
records with no error, consuming the whole stream. -/
theorem csv_roundtrip (d : Dialect) (rs : List (List (List Char)))
    (hd : GoodDialect d.setDefaults) (hrs : ∀ r ∈ rs, SafeRecord d.setDefaults r) :
    dialectReadAll d ⟨dialectWriteAll d (rs.map (fun r => r.map strBytes)), .eof⟩ =
      ((rs.map (fun r => r.map strBytes), none), ⟨[], .eof⟩) := by
  rw [dialectReadAll, readAllRecords, dialectWriteAll]
  have := readAllF_roundtrip d.setDefaults hd rs hrs
    ((RState.buf ⟨writeAll d.setDefaults (rs.map (fun r => r.map strBytes)), .eof⟩).length + 1)
    [] le_rfl
  simpa using this

/-- Witness for `csv_roundtrip` at the resolved default dialect and the
records `[["ab"], ["c,d"]]` (the second record needs quoting). -/
theorem csv_roundtrip_witness :
    dialectReadAll zeroDialect
        ⟨dialectWriteAll zeroDialect
          ([["ab".data], ["c,d".data]].map (fun r => r.map strBytes)), .eof⟩ =
      (([["ab".data], ["c,d".data]].map (fun r => r.map strBytes), none), ⟨[], .eof⟩) :=
  csv_roundtrip zeroDialect [["ab".data], ["c,d".data]] goodDialect_default (by
    intro r hr
    simp only [List.mem_cons, List.not_mem_nil, or_false] at hr
    rcases hr with rfl | rfl
    · refine ⟨by decide, fun f hf => ?_, fun f0 hf0 hfq => ?_⟩
      · simp only [List.mem_cons, List.not_mem_nil, or_false] at hf
        subst hf
        exact ⟨by decide, fun hfq => ⟨by decide, by decide, by decide⟩⟩
      · simp only [List.head?_cons, Option.mem_def, Option.some.injEq] at hf0
        subst hf0
        decide
    · refine ⟨by decide, fun f hf => ?_, fun f0 hf0 hfq => ?_⟩
      · simp only [List.mem_cons, List.not_mem_nil, or_false] at hf
        subst hf
        exact ⟨by decide, fun hfq => absurd hfq (by decide)⟩
      · simp only [List.head?_cons, Option.mem_def, Option.some.injEq] at hf0
        subst hf0
        decide)

end GoCsv

namespace GoCsv

/-- C8, counterexample: with the two-byte line terminator `"\r\n"` and the
input `"a,b"` ending at the source's end, `Read` does not return the
partially scanned final field `"b"`: the line-terminator peek at the start
of that field fails on the one remaining byte, so the record comes back as
`["a", ""]` with the byte `'b'` still unconsumed. -/
theorem read_eof_short_tail_counterexample :
    dialectRead { zeroDialect with lineTerminator := gostr "\r\n" } ⟨gostr "a,b", .eof⟩ =
        (([gostr "a", []], some .eof), ⟨gostr "b", .eof⟩) ∧
      ([gostr "a", ([] : Bytes)] : List Bytes) ≠ [gostr "a", gostr "b"] :=
  ⟨by decide, by decide⟩

/-- C8 (amended): under a resolved dialect with good special characters
and a single-byte line terminator, when the source ends in the middle of a
record — unquoted fields joined by the delimiter, no trailing line
terminator, not starting as a comment — `Read` returns every field
scanned so far, including the final field read up to end of stream,
together with the stream's terminal status, and consumes the whole
input. -/
theorem read_eof_mid_record (d : Dialect) (hd : GoodDialect d.setDefaults)
    (hlt1 : d.setDefaults.lineTerminator.length = 1) (fields : List (List Char))
    (hne : fields ≠ [])
    (hcond : ∀ f ∈ fields, d.setDefaults.delimiter ∉ f ∧
      containsStr (strBytes f) d.setDefaults.lineTerminator = false ∧
      f.head? ≠ some d.setDefaults.quoteChar)
    (hncs : NonCommentStart d.setDefaults (unquotedJoin d.setDefaults fields)) (e : GoErr) :
    dialectRead d ⟨unquotedJoin d.setDefaults fields, e⟩ =
      ((fields.map strBytes, some e), ⟨[], e⟩) :=
  readRecord_eof_run d.setDefaults hd hlt1 fields hne hcond hncs e

/-- Witness for `read_eof_mid_record` at the default dialect and the
mid-record input `"a,b"`. -/
theorem read_eof_mid_record_witness :
    dialectRead zeroDialect ⟨unquotedJoin zeroDialect.setDefaults ["a".data, "b".data], .eof⟩ =
      ((["a".data, "b".data].map strBytes, some .eof), ⟨[], .eof⟩) :=
  read_eof_mid_record zeroDialect goodDialect_default (by decide) ["a".data, "b".data]
    (by decide)
    (by
      intro f hf
      simp only [List.mem_cons, List.not_mem_nil, or_false] at hf
      rcases hf with rfl | rfl
      · exact ⟨by decide, by decide, by decide⟩
      · exact ⟨by decide, by decide, by decide⟩)
    ⟨0, by decide, fun j hj => absurd hj (Nat.not_lt_zero j), by decide, by decide⟩ .eof

end GoCsv
